import Mathlib

/-!
Verification of the dynamic-template polyfill (`docs/polyfill.js`).

The development shallowly embeds the three algorithmic cores of the
repository:

* the node-range reconciliation algorithm
  (`DynamicTemplateNodeRangePartImpl.replaceWith` together with the span
  primitives of `NodeRangeImpl`),
* the markup scanner inside `document.createDynamicTemplate` (the
  fragment-boundary state machine that classifies placeholders and injects
  durable markers), and
* the small part-list / root-node-list classes.

DOM nodes are modelled as values with an explicit identity (`id`): the DOM
compares nodes by reference, so two text nodes with equal contents are
distinct when their ids differ.  Fresh node creation threads a counter
(`nextId`); well-formed states keep every live id below the counter, which
is the model of "`document.createTextNode` returns a node distinct from all
existing ones".  The mutation counters (`created`, `inserted`, `moved`,
`removed`) count the host-tree primitive calls the algorithm performs, which
is what the specification's "zero mutations" and "node relocations" talk
about.
-/

namespace DynTpl

/-- A DOM node of the host tree, compared by identity (`id`).  `isText` and
`text` model `nodeType === TEXT_NODE` and `nodeValue`; non-text nodes carry
an irrelevant `text` field. -/
structure DNode where
  id : Nat
  isText : Bool
  text : String
deriving DecidableEq, Repr

/-- An argument of `replaceWith` / a value assigned into a `NodeRange`.
`str` and `node` are the two supported kinds; `other` stands for any
JavaScript value that is neither a string nor a `Node` (carrying its
`String(value)` coercion), used to settle the error-handling claims. -/
inductive DValue where
  | str (s : String)
  | node (n : DNode)
  | other (repr : String)
deriving DecidableEq, Repr

/-- The state of one node-range span (the children strictly between the two
boundary sentinels, in order) together with the fresh-id counter and the
mutation counters.  The sentinels themselves are never part of `span`
(`NodeRangeImpl` walks from `startingBoundary.nextSibling` up to
`endingBoundary`). -/
structure RangeState where
  span : List DNode
  nextId : Nat
  created : Nat
  inserted : Nat
  moved : Nat
  removed : Nat
  replaced : Nat
deriving DecidableEq, Repr

/-- `document.createTextNode(s)`: a fresh text node. -/
def freshText (k : Nat) (s : String) : DNode := ⟨k, true, s⟩

/-- `NodeRangeImpl.removeNode` (`parentNode.removeChild`): remove the node
from the span.  In reachable states the node is in the span. -/
def spanRemove (st : RangeState) (n : DNode) : RangeState :=
  { st with span := st.span.erase n, removed := st.removed + 1 }

/-- Insert `n` immediately before the first occurrence of `r`.  The
reference node is always present in reachable states (otherwise the DOM
call would throw); on an absent reference this total model appends. -/
def listInsertBefore : List DNode → DNode → DNode → List DNode
  | [], n, _ => [n]
  | a :: rest, n, r => if a = r then n :: a :: rest else a :: listInsertBefore rest n r

/-- `NodeRangeImpl.insertBefore` (`parentNode.insertBefore(newNode, refNode
|| endingBoundary)`).  DOM `insertBefore` first detaches `newNode` from its
current position, so a node already in the span is *moved*; the cursor
`none` stands for the ending boundary (insert at the end of the span).  The
`moved` / `inserted` counters record which of the two happened. -/
def spanInsertBefore (st : RangeState) (n : DNode) (cursor : Option DNode) : RangeState :=
  let wasIn := n ∈ st.span
  let detached := st.span.erase n
  let span' := match cursor with
    | none => detached ++ [n]
    | some r => listInsertBefore detached n r
  if wasIn then { st with span := span', moved := st.moved + 1 }
  else { st with span := span', inserted := st.inserted + 1 }

/-- `nextSibling` inside the span: the node after the first occurrence of
`n`, `none` when `n` is last (its `nextSibling` is the ending boundary). -/
def nextAfter : List DNode → DNode → Option DNode
  | [], _ => none
  | a :: rest, n => if a = n then rest.head? else nextAfter rest n

/-- The `findIndex`/`splice` pair of the normalization step: find the first
text node in the mappable list whose `nodeValue` equals `s` and remove it. -/
def findAndRemove (s : String) : List DNode → Option (DNode × List DNode)
  | [] => none
  | t :: ts =>
    if t.text = s then some (t, ts)
    else (findAndRemove s ts).map (fun p => (p.1, t :: p.2))

/-- The `nodes.map(...)` normalization of `replaceWith`: a `Node` argument
passes through; a string argument reuses the first mappable current text
node with equal `nodeValue` (consuming it) or creates a fresh text node; any
other value fails the `instanceof Node` test and the `nodeValue === node`
comparison (a string never equals a non-string), so it is coerced by
`document.createTextNode` into a fresh text node holding its string
coercion.  Returns the normalized node list and the state after the
creations. -/
def normalizeValues : List DValue → List DNode → RangeState → (List DNode × RangeState)
  | [], _, st => ([], st)
  | DValue.node n :: rest, mp, st =>
    let (ns, st') := normalizeValues rest mp st
    (n :: ns, st')
  | DValue.str s :: rest, mp, st =>
    match findAndRemove s mp with
    | some (t, mp') =>
      let (ns, st') := normalizeValues rest mp' st
      (t :: ns, st')
    | none =>
      let t := freshText st.nextId s
      let (ns, st') := normalizeValues rest mp
        { st with nextId := st.nextId + 1, created := st.created + 1 }
      (t :: ns, st')
  | DValue.other r :: rest, mp, st =>
    let t := freshText st.nextId r
    let (ns, st') := normalizeValues rest mp
      { st with nextId := st.nextId + 1, created := st.created + 1 }
    (t :: ns, st')

/-- The removal loop: every current node absent from the normalized list is
removed from the host tree. -/
def removeGone (cur normalized : List DNode) (st : RangeState) : RangeState :=
  cur.foldl (fun st n => if n ∈ normalized then st else spanRemove st n) st

/-- The "reorder preserved nodes" loop.  `cur` is the `currentNodes`
snapshot; the cursor is `currentNode` (`none` once it has advanced past the
last span node onto the ending boundary, which never equals a processed
node). -/
def reorderLoop (cur : List DNode) : RangeState → Option DNode → List DNode → RangeState
  | st, _, [] => st
  | st, cursor, n :: rest =>
    if n ∈ cur then
      if some n ≠ cursor then reorderLoop cur (spanInsertBefore st n cursor) cursor rest
      else reorderLoop cur st (nextAfter st.span n) rest
    else reorderLoop cur st cursor rest

/-- The "insert new nodes" loop.  The cursor is `insertBeforeNode`; as in
the source it starts from `firstPreservedNode` again, and `none` covers both
`null` and the advanced-past-the-end boundary (either way the node is
inserted before the ending boundary and the cursor stays). -/
def insertLoop : RangeState → Option DNode → List DNode → RangeState
  | st, _, [] => st
  | st, cursor, n :: rest =>
    if some n ≠ cursor then insertLoop (spanInsertBefore st n cursor) cursor rest
    else insertLoop st (nextAfter st.span n) rest

/-- `currentTextNodesMappableToNewStrings`: the current text nodes that are
not themselves passed (by identity) in the argument list; a string argument
never equals a node under `includes` (`===`), so the check reduces to the
node arguments. -/
def mappableOf (cur : List DNode) (values : List DValue) : List DNode :=
  (cur.filter (fun n => n.isText)).filter (fun t => decide (DValue.node t ∉ values))

/-- `DynamicTemplateNodeRangePartImpl.replaceWith(...values)`, phase by
phase: snapshot, normalization with text-node reuse, removal, reordering of
preserved nodes, insertion. -/
def replaceWith (st0 : RangeState) (values : List DValue) : RangeState :=
  let currentNodes := st0.span
  let mappable := mappableOf currentNodes values
  let norm := normalizeValues values mappable st0
  let normalizedNodes := norm.1
  let st2 := removeGone currentNodes normalizedNodes norm.2
  let firstPreserved := currentNodes.find? (fun n => decide (n ∈ normalizedNodes))
  let st3 := match firstPreserved with
    | none => st2
    | some f => reorderLoop currentNodes st2 (some f) normalizedNodes
  insertLoop st3 firstPreserved normalizedNodes

/-- The node a `replaceWith` entry must correspond to, per the guarantee of
§4.5: a tree-node entry appears itself; a string entry appears as a text
node whose text equals that string (an `other` entry, which the code coerces
to a string, likewise yields a text node holding the coercion). -/
def valueMatches : DValue → DNode → Prop
  | DValue.node m, n => n = m
  | DValue.str s, n => n.isText = true ∧ n.text = s
  | DValue.other r, n => n.isText = true ∧ n.text = r

/-- The node arguments of a value list, in order (used to state the
distinctness precondition: the DOM cannot hold one node at two places). -/
def vNodes (values : List DValue) : List DNode :=
  values.filterMap (fun v => match v with
    | DValue.node n => some n
    | _ => none)

/-- No entry of the value list is of the unsupported (`other`) kind: the
value list consists of strings and tree nodes only. -/
def NoOther (values : List DValue) : Prop :=
  ∀ r : String, DValue.other r ∉ values

/-! ### List helpers -/

theorem nodup_split {xs ys : List DNode} {y : DNode} (h : (xs ++ y :: ys).Nodup) :
    y ∉ xs ∧ y ∉ ys ∧ (xs ++ ys).Nodup := by
  have h' := List.nodup_middle.mp h
  rcases List.nodup_cons.mp h' with ⟨hy, hn⟩
  exact ⟨fun hx => hy (by simp [hx]), fun hx => hy (by simp [hx]), hn⟩

theorem listInsertBefore_append {A l : List DNode} (n : DNode) {r : DNode} (h : r ∉ A) :
    listInsertBefore (A ++ l) n r = A ++ listInsertBefore l n r := by
  induction A with
  | nil => rfl
  | cons a t ih =>
    have har : ¬a = r := fun hr => h (by simp [hr])
    simp only [List.cons_append, listInsertBefore, if_neg har, List.append_eq]
    rw [ih (fun hr => h (List.mem_cons_of_mem _ hr))]

theorem listInsertBefore_cons_self (l : List DNode) (n r : DNode) :
    listInsertBefore (r :: l) n r = n :: r :: l := by
  simp [listInsertBefore]

theorem nextAfter_append {A l : List DNode} {n : DNode} (h : n ∉ A) :
    nextAfter (A ++ l) n = nextAfter l n := by
  induction A with
  | nil => rfl
  | cons a t ih =>
    have han : ¬a = n := fun hr => h (by simp [hr])
    simp only [List.cons_append, nextAfter, if_neg han]
    exact ih (fun hr => h (List.mem_cons_of_mem _ hr))

theorem nextAfter_cons_self (l : List DNode) (n : DNode) :
    nextAfter (n :: l) n = l.head? := by
  simp [nextAfter]

theorem find?_eq_head?_filter (p : DNode → Bool) (l : List DNode) :
    l.find? p = (l.filter p).head? := by
  induction l with
  | nil => rfl
  | cons a t ih =>
    cases h : p a with
    | true => rw [List.find?_cons_of_pos _ h, List.filter_cons_of_pos h]; rfl
    | false =>
      rw [List.find?_cons_of_neg _ (by simp [h]), List.filter_cons_of_neg (by simp [h])]
      exact ih

theorem vNodes_cons_node (m : DNode) (vs : List DValue) :
    vNodes (DValue.node m :: vs) = m :: vNodes vs := by
  simp [vNodes, List.filterMap_cons]

theorem vNodes_cons_str (s : String) (vs : List DValue) :
    vNodes (DValue.str s :: vs) = vNodes vs := by
  simp [vNodes, List.filterMap_cons]

theorem vNodes_cons_other (r : String) (vs : List DValue) :
    vNodes (DValue.other r :: vs) = vNodes vs := by
  simp [vNodes, List.filterMap_cons]

theorem vNodes_mem : ∀ {vs : List DValue} {n : DNode}, DValue.node n ∈ vs → n ∈ vNodes vs := by
  intro vs
  induction vs with
  | nil => intro n h; cases h
  | cons v t ih =>
    intro n h
    rcases List.mem_cons.mp h with h1 | h2
    · subst h1
      rw [vNodes_cons_node]; exact List.mem_cons_self _ _
    · cases v with
      | node m => rw [vNodes_cons_node]; exact List.mem_cons_of_mem _ (ih h2)
      | str s => rw [vNodes_cons_str]; exact ih h2
      | other r => rw [vNodes_cons_other]; exact ih h2

/-! ### `findAndRemove` -/

theorem findAndRemove_some {s : String} :
    ∀ {mp mp' : List DNode} {t : DNode}, findAndRemove s mp = some (t, mp') →
    t.text = s ∧ ∃ A B, mp = A ++ t :: B ∧ mp' = A ++ B := by
  intro mp
  induction mp with
  | nil => intro mp' t h; cases h
  | cons a rest ih =>
    intro mp' t h
    by_cases ha : a.text = s
    · simp only [findAndRemove, if_pos ha] at h
      cases h
      exact ⟨ha, [], rest, rfl, rfl⟩
    · simp only [findAndRemove, if_neg ha] at h
      rcases hrec : findAndRemove s rest with _ | ⟨u, mp''⟩
      · rw [hrec] at h; cases h
      · rw [hrec] at h
        simp only [Option.map_some'] at h
        cases h
        rcases ih hrec with ⟨ht, A, B, hAB, hAB'⟩
        exact ⟨ht, a :: A, B, by simp [hAB], by simp [hAB']⟩

theorem findAndRemove_mem {s : String} {mp mp' : List DNode} {t : DNode}
    (h : findAndRemove s mp = some (t, mp')) : t ∈ mp := by
  rcases findAndRemove_some h with ⟨_, A, B, hAB, _⟩
  subst hAB; simp

theorem findAndRemove_subset {s : String} {mp mp' : List DNode} {t : DNode}
    (h : findAndRemove s mp = some (t, mp')) : ∀ x ∈ mp', x ∈ mp := by
  rcases findAndRemove_some h with ⟨_, A, B, hAB, hAB'⟩
  subst hAB; subst hAB'
  intro x hx
  rcases List.mem_append.mp hx with hx | hx
  · simp [hx]
  · simp [hx]

theorem findAndRemove_nodup {s : String} {mp mp' : List DNode} {t : DNode}
    (h : findAndRemove s mp = some (t, mp')) (hN : mp.Nodup) :
    mp'.Nodup ∧ t ∉ mp' := by
  rcases findAndRemove_some h with ⟨_, A, B, hAB, hAB'⟩
  subst hAB; subst hAB'
  rcases nodup_split hN with ⟨hA, hB, hAB⟩
  exact ⟨hAB, fun hx => by rcases List.mem_append.mp hx with hx | hx <;> [exact hA hx; exact hB hx]⟩

/-! ### `normalizeValues`: basic facts -/

theorem norm_state (vs : List DValue) :
    ∀ (mp : List DNode) (st : RangeState),
    (normalizeValues vs mp st).2.span = st.span ∧
    (normalizeValues vs mp st).2.inserted = st.inserted ∧
    (normalizeValues vs mp st).2.moved = st.moved ∧
    (normalizeValues vs mp st).2.removed = st.removed ∧
    st.nextId ≤ (normalizeValues vs mp st).2.nextId := by
  induction vs with
  | nil => intro mp st; exact ⟨rfl, rfl, rfl, rfl, Nat.le_refl _⟩
  | cons v rest ih =>
    intro mp st
    cases v with
    | node n => simpa only [normalizeValues] using ih mp st
    | str s =>
      rcases hf : findAndRemove s mp with _ | ⟨t, mp'⟩
      · have h := ih mp { st with nextId := st.nextId + 1, created := st.created + 1 }
        simp only [normalizeValues, hf]
        exact ⟨h.1, h.2.1, h.2.2.1, h.2.2.2.1, Nat.le_trans (Nat.le_succ _) h.2.2.2.2⟩
      · simpa only [normalizeValues, hf] using ih mp' st
    | other r =>
      have h := ih mp { st with nextId := st.nextId + 1, created := st.created + 1 }
      simp only [normalizeValues]
      exact ⟨h.1, h.2.1, h.2.2.1, h.2.2.2.1, Nat.le_trans (Nat.le_succ _) h.2.2.2.2⟩

theorem norm_length (vs : List DValue) :
    ∀ (mp : List DNode) (st : RangeState),
    (normalizeValues vs mp st).1.length = vs.length := by
  induction vs with
  | nil => intro mp st; rfl
  | cons v rest ih =>
    intro mp st
    cases v with
    | node n => simp only [normalizeValues, List.length_cons, ih]
    | str s =>
      rcases hf : findAndRemove s mp with _ | ⟨t, mp'⟩ <;>
        simp only [normalizeValues, hf, List.length_cons, ih]
    | other r => simp only [normalizeValues, List.length_cons, ih]

theorem norm_mem (vs : List DValue) :
    ∀ (mp : List DNode) (st : RangeState) {n : DNode},
    n ∈ (normalizeValues vs mp st).1 →
    DValue.node n ∈ vs ∨ n ∈ mp ∨ st.nextId ≤ n.id := by
  induction vs with
  | nil => intro mp st n h; cases h
  | cons v rest ih =>
    intro mp st n h
    cases v with
    | node m =>
      simp only [normalizeValues] at h
      rcases List.mem_cons.mp h with h | h
      · subst h; exact Or.inl (by simp)
      · rcases ih mp st h with h | h | h
        · exact Or.inl (List.mem_cons_of_mem _ h)
        · exact Or.inr (Or.inl h)
        · exact Or.inr (Or.inr h)
    | str s =>
      rcases hf : findAndRemove s mp with _ | ⟨t, mp'⟩
      · simp only [normalizeValues, hf] at h
        rcases List.mem_cons.mp h with h | h
        · subst h; exact Or.inr (Or.inr (Nat.le_refl _))
        · rcases ih mp _ h with h | h | h
          · exact Or.inl (List.mem_cons_of_mem _ h)
          · exact Or.inr (Or.inl h)
          · exact Or.inr (Or.inr (Nat.le_trans (Nat.le_succ _) h))
      · simp only [normalizeValues, hf] at h
        rcases List.mem_cons.mp h with h | h
        · subst h; exact Or.inr (Or.inl (findAndRemove_mem hf))
        · rcases ih mp' st h with h | h | h
          · exact Or.inl (List.mem_cons_of_mem _ h)
          · exact Or.inr (Or.inl (findAndRemove_subset hf _ h))
          · exact Or.inr (Or.inr h)
    | other r =>
      simp only [normalizeValues] at h
      rcases List.mem_cons.mp h with h | h
      · subst h; exact Or.inr (Or.inr (Nat.le_refl _))
      · rcases ih mp _ h with h | h | h
        · exact Or.inl (List.mem_cons_of_mem _ h)
        · exact Or.inr (Or.inl h)
        · exact Or.inr (Or.inr (Nat.le_trans (Nat.le_succ _) h))

/-! ### `normalizeValues`: provenance and distinctness -/

/-- What normalization guarantees entrywise, with provenance for the
text-node positions: a reused node comes from the mappable list `mp`, a
created node has an id at least `k` (the fresh-id counter at entry). -/
def strProv (mp : List DNode) (k : Nat) : DValue → DNode → Prop
  | DValue.node m, n => n = m
  | DValue.str s, n => n.isText = true ∧ n.text = s ∧ (n ∈ mp ∨ k ≤ n.id)
  | DValue.other r, n => n.isText = true ∧ n.text = r ∧ k ≤ n.id

theorem strProv_mono {mp mp' : List DNode} {k k' : Nat}
    (hm : ∀ x ∈ mp', x ∈ mp) (hk : k ≤ k') :
    ∀ {v n}, strProv mp' k' v n → strProv mp k v n := by
  intro v n h
  cases v with
  | node m => exact h
  | str s =>
    rcases h with ⟨h1, h2, h3 | h3⟩
    · exact ⟨h1, h2, Or.inl (hm _ h3)⟩
    · exact ⟨h1, h2, Or.inr (Nat.le_trans hk h3)⟩
  | other r => exact ⟨h.1, h.2.1, Nat.le_trans hk h.2.2⟩

theorem norm_prov (vs : List DValue) :
    ∀ (mp : List DNode) (st : RangeState), (∀ t ∈ mp, t.isText = true) →
    List.Forall₂ (strProv mp st.nextId) vs (normalizeValues vs mp st).1 := by
  induction vs with
  | nil => intro mp st _; exact List.Forall₂.nil
  | cons v rest ih =>
    intro mp st hmp
    cases v with
    | node m =>
      simp only [normalizeValues]
      exact List.Forall₂.cons rfl (ih mp st hmp)
    | str s =>
      rcases hf : findAndRemove s mp with _ | ⟨t, mp'⟩
      · simp only [normalizeValues, hf]
        refine List.Forall₂.cons ⟨rfl, rfl, Or.inr (Nat.le_refl _)⟩ ?_
        have hrec := ih mp { st with nextId := st.nextId + 1, created := st.created + 1 } hmp
        exact hrec.imp (fun a b h => strProv_mono (fun x hx => hx) (Nat.le_succ _) h)
      · simp only [normalizeValues, hf]
        refine List.Forall₂.cons
          ⟨hmp t (findAndRemove_mem hf), (findAndRemove_some hf).1, Or.inl (findAndRemove_mem hf)⟩ ?_
        exact (ih mp' st (fun x hx => hmp x (findAndRemove_subset hf x hx))).imp
          (fun a b h => strProv_mono (findAndRemove_subset hf) (Nat.le_refl _) h)
    | other r =>
      simp only [normalizeValues]
      refine List.Forall₂.cons ⟨rfl, rfl, Nat.le_refl _⟩ ?_
      have hrec := ih mp { st with nextId := st.nextId + 1, created := st.created + 1 } hmp
      exact hrec.imp (fun a b h => strProv_mono (fun x hx => hx) (Nat.le_succ _) h)

theorem norm_nodup (vs : List DValue) :
    ∀ (mp : List DNode) (st : RangeState),
    mp.Nodup →
    (∀ t ∈ mp, t.id < st.nextId) →
    (∀ t ∈ mp, DValue.node t ∉ vs) →
    (vNodes vs).Nodup →
    (∀ n ∈ vNodes vs, n.id < st.nextId) →
    (normalizeValues vs mp st).1.Nodup := by
  induction vs with
  | nil => intro mp st _ _ _ _ _; exact List.nodup_nil
  | cons v rest ih =>
    intro mp st hmpN hmpId hmpV hvN hvId
    cases v with
    | node m =>
      rw [vNodes_cons_node] at hvN hvId
      have hvN' := List.nodup_cons.mp hvN
      have tail : (normalizeValues rest mp st).1.Nodup :=
        ih mp st hmpN hmpId
          (fun t ht => fun hmem => hmpV t ht (List.mem_cons_of_mem _ hmem)) hvN'.2
          (fun n hn => hvId n (List.mem_cons_of_mem _ hn))
      simp only [normalizeValues]
      refine List.nodup_cons.mpr ⟨?_, tail⟩
      intro hmem
      rcases norm_mem rest mp st hmem with h | h | h
      · exact hvN'.1 (vNodes_mem h)
      · exact hmpV m h (List.mem_cons_self _ _)
      · exact absurd (hvId m (List.mem_cons_self _ _)) (Nat.not_lt.mpr h)
    | str s =>
      rw [vNodes_cons_str] at hvN hvId
      rcases hf : findAndRemove s mp with _ | ⟨t, mp'⟩
      · have tail : (normalizeValues rest mp
            { st with nextId := st.nextId + 1, created := st.created + 1 }).1.Nodup :=
          ih mp _ hmpN (fun t ht => Nat.lt_succ_of_lt (hmpId t ht))
            (fun t ht hmem => hmpV t ht (List.mem_cons_of_mem _ hmem)) hvN
            (fun n hn => Nat.lt_succ_of_lt (hvId n hn))
        simp only [normalizeValues, hf]
        refine List.nodup_cons.mpr ⟨?_, tail⟩
        intro hmem
        rcases norm_mem rest mp _ hmem with h | h | h
        · exact absurd (hvId _ (vNodes_mem h)) (Nat.lt_irrefl _)
        · exact absurd (hmpId _ h) (Nat.lt_irrefl _)
        · exact Nat.not_succ_le_self _ h
      · rcases findAndRemove_nodup hf hmpN with ⟨hmp'N, htmp'⟩
        have tail : (normalizeValues rest mp' st).1.Nodup :=
          ih mp' st hmp'N (fun x hx => hmpId x (findAndRemove_subset hf x hx))
            (fun x hx hmem => hmpV x (findAndRemove_subset hf x hx) (List.mem_cons_of_mem _ hmem))
            hvN hvId
        simp only [normalizeValues, hf]
        refine List.nodup_cons.mpr ⟨?_, tail⟩
        intro hmem
        rcases norm_mem rest mp' st hmem with h | h | h
        · exact hmpV t (findAndRemove_mem hf) (List.mem_cons_of_mem _ h)
        · exact htmp' h
        · exact absurd (hmpId t (findAndRemove_mem hf)) (Nat.not_lt.mpr h)
    | other r =>
      rw [vNodes_cons_other] at hvN hvId
      have tail : (normalizeValues rest mp
          { st with nextId := st.nextId + 1, created := st.created + 1 }).1.Nodup :=
        ih mp _ hmpN (fun t ht => Nat.lt_succ_of_lt (hmpId t ht))
          (fun t ht hmem => hmpV t ht (List.mem_cons_of_mem _ hmem)) hvN
          (fun n hn => Nat.lt_succ_of_lt (hvId n hn))
      simp only [normalizeValues]
      refine List.nodup_cons.mpr ⟨?_, tail⟩
      intro hmem
      rcases norm_mem rest mp _ hmem with h | h | h
      · exact absurd (hvId _ (vNodes_mem h)) (Nat.lt_irrefl _)
      · exact absurd (hmpId _ h) (Nat.lt_irrefl _)
      · exact Nat.not_succ_le_self _ h

/-! ### The removal pass -/

theorem removeGone_spec : ∀ (cur N : List DNode) (st : RangeState) (D : List DNode),
    st.span = D ++ cur → (D ++ cur).Nodup →
    (removeGone cur N st).span = D ++ cur.filter (fun n => decide (n ∈ N)) := by
  intro cur
  induction cur with
  | nil => intro N st D hspan _; simpa [removeGone] using hspan
  | cons c rest ih =>
    intro N st D hspan hnodup
    rcases nodup_split hnodup with ⟨hcD, hcrest, hDrest⟩
    by_cases hc : c ∈ N
    · have step : removeGone (c :: rest) N st = removeGone rest N st := by
        simp only [removeGone, List.foldl_cons, if_pos hc]
      rw [step, List.filter_cons_of_pos (by simp [hc])]
      have h := ih N st (D ++ [c])
        (by rw [hspan]; simp)
        (by
          have : D ++ [c] ++ rest = D ++ c :: rest := by simp
          rw [this]; exact hnodup)
      rw [h]; simp
    · have step : removeGone (c :: rest) N st = removeGone rest N (spanRemove st c) := by
        simp only [removeGone, List.foldl_cons, if_neg hc]
      have hspan' : (spanRemove st c).span = D ++ rest := by
        show st.span.erase c = D ++ rest
        rw [hspan, List.erase_append_right _ hcD, List.erase_cons_head]
      rw [step, List.filter_cons_of_neg (by simp [hc]), ih N (spanRemove st c) D hspan'
        (by
          rcases List.nodup_append.mp hnodup with ⟨h1, h2, h3⟩
          exact List.nodup_append.mpr ⟨h1, (List.nodup_cons.mp h2).2,
            fun a ha hb => h3 ha (List.mem_cons_of_mem _ hb)⟩)]

/-- The removal pass does nothing when every current node is kept. -/
theorem removeGone_noop : ∀ (cur N : List DNode) (st : RangeState),
    (∀ c ∈ cur, c ∈ N) → removeGone cur N st = st := by
  intro cur
  induction cur with
  | nil => intro N st _; rfl
  | cons c rest ih =>
    intro N st h
    have step : removeGone (c :: rest) N st = removeGone rest N st := by
      simp only [removeGone, List.foldl_cons, if_pos (h c (List.mem_cons_self _ _))]
    rw [step, ih N st (fun x hx => h x (List.mem_cons_of_mem _ hx))]

/-! ### The reorder pass -/

theorem reorderLoop_spec : ∀ (ns cur A B : List DNode) (st : RangeState),
    st.span = A ++ B →
    ns.Nodup → B.Nodup →
    (∀ x, x ∈ B ↔ x ∈ ns ∧ x ∈ cur) →
    (∀ a ∈ A, a ∉ ns) →
    (reorderLoop cur st B.head? ns).span = A ++ ns.filter (fun n => decide (n ∈ cur)) := by
  intro ns
  induction ns with
  | nil =>
    intro cur A B st hspan _ _ hiff _
    have hB : B = [] := List.eq_nil_iff_forall_not_mem.mpr
      (fun x hx => by rcases (hiff x).mp hx with ⟨h, _⟩; cases h)
    subst hB
    simpa [reorderLoop] using hspan
  | cons n rest ih =>
    intro cur A B st hspan hnsN hBN hiff hA
    have hnrest : n ∉ rest := (List.nodup_cons.mp hnsN).1
    have hrestN : rest.Nodup := (List.nodup_cons.mp hnsN).2
    by_cases hc : n ∈ cur
    · have hnB : n ∈ B := (hiff n).mpr ⟨List.mem_cons_self _ _, hc⟩
      have hnA : n ∉ A := fun hx => hA n hx (List.mem_cons_self _ _)
      cases B with
      | nil => cases hnB
      | cons c B₂ =>
        have hBc := List.nodup_cons.mp hBN
        have hcA : c ∉ A := fun hx =>
          hA c hx ((hiff c).mp (List.mem_cons_self _ _)).1
        rcases eq_or_ne n c with rfl | hnc
        · -- the entry is exactly the cursor: advance
          have step : reorderLoop cur st (n :: B₂).head? (n :: rest) =
              reorderLoop cur st (nextAfter st.span n) rest := by
            simp [reorderLoop, hc]
          have hnext : nextAfter st.span n = B₂.head? := by
            rw [hspan, nextAfter_append hnA, nextAfter_cons_self]
          have h := ih cur (A ++ [n]) B₂ st
            (by rw [hspan]; simp)
            hrestN hBc.2
            (by
              intro x
              constructor
              · intro hx
                have hxB := (hiff x).mp (List.mem_cons_of_mem _ hx)
                have hxn : x ≠ n := fun he => hBc.1 (he ▸ hx)
                rcases hxB with ⟨hx1, hx2⟩
                rcases List.mem_cons.mp hx1 with he | hr
                · exact absurd he hxn
                · exact ⟨hr, hx2⟩
              · intro ⟨hx1, hx2⟩
                have hxns : x ∈ n :: rest := List.mem_cons_of_mem _ hx1
                have := (hiff x).mpr ⟨hxns, hx2⟩
                rcases List.mem_cons.mp this with he | hr
                · exact absurd (he ▸ hx1) hnrest
                · exact hr)
            (by
              intro a ha hr
              rcases List.mem_append.mp ha with h1 | h1
              · exact hA a h1 (List.mem_cons_of_mem _ hr)
              · rcases List.mem_singleton.mp h1 with rfl
                exact hnrest hr)
          rw [step, hnext, h, List.filter_cons_of_pos (by simp [hc])]
          simp
        · -- the entry precedes the cursor: move it right before the cursor
          have step : reorderLoop cur st (c :: B₂).head? (n :: rest) =
              reorderLoop cur (spanInsertBefore st n (some c)) (some c) rest := by
            simp [reorderLoop, hc, hnc]
          have hwas : n ∈ st.span := by rw [hspan]; exact List.mem_append_right _ hnB
          have hnB₂ : n ∈ B₂ := by
            rcases List.mem_cons.mp hnB with he | hr
            · exact absurd he hnc
            · exact hr
          have hspan' : (spanInsertBefore st n (some c)).span =
              (A ++ [n]) ++ c :: B₂.erase n := by
            simp only [spanInsertBefore, if_pos hwas]
            show listInsertBefore (st.span.erase n) n c = _
            rw [hspan, List.erase_append_right _ hnA,
              List.erase_cons, if_neg (by simp [Ne.symm hnc]),
              listInsertBefore_append n hcA, listInsertBefore_cons_self]
            simp
          have hB'N : (c :: B₂.erase n).Nodup :=
            List.nodup_cons.mpr ⟨fun hx => hBc.1 (List.mem_of_mem_erase hx), hBc.2.erase n⟩
          have h := ih cur (A ++ [n]) (c :: B₂.erase n) (spanInsertBefore st n (some c))
            hspan' hrestN hB'N
            (by
              intro x
              have hxB : x ∈ c :: B₂.erase n ↔ x ≠ n ∧ x ∈ c :: B₂ := by
                constructor
                · intro hx
                  rcases List.mem_cons.mp hx with he | hr
                  · exact ⟨he ▸ Ne.symm hnc, he ▸ List.mem_cons_self _ _⟩
                  · exact ⟨(List.Nodup.mem_erase_iff hBc.2).mp hr |>.1,
                      List.mem_cons_of_mem _ (List.mem_of_mem_erase hr)⟩
                · intro ⟨hx1, hx2⟩
                  rcases List.mem_cons.mp hx2 with he | hr
                  · exact he ▸ List.mem_cons_self _ _
                  · exact List.mem_cons_of_mem _
                      ((List.Nodup.mem_erase_iff hBc.2).mpr ⟨hx1, hr⟩)
              rw [hxB]
              constructor
              · intro ⟨hx1, hx2⟩
                rcases (hiff x).mp hx2 with ⟨hx3, hx4⟩
                rcases List.mem_cons.mp hx3 with he | hr
                · exact absurd he hx1
                · exact ⟨hr, hx4⟩
              · intro ⟨hx1, hx2⟩
                refine ⟨fun he => hnrest (he ▸ hx1), ?_⟩
                exact (hiff x).mpr ⟨List.mem_cons_of_mem _ hx1, hx2⟩)
            (by
              intro a ha hr
              rcases List.mem_append.mp ha with h1 | h1
              · exact hA a h1 (List.mem_cons_of_mem _ hr)
              · rcases List.mem_singleton.mp h1 with rfl
                exact hnrest hr)
          have h' : (reorderLoop cur (spanInsertBefore st n (some c)) (some c) rest).span =
              A ++ [n] ++ List.filter (fun m => decide (m ∈ cur)) rest := h
          rw [step, h', List.filter_cons_of_pos (by simp [hc])]
          simp
    · -- not a preserved node: the reorder pass skips it
      have step : reorderLoop cur st B.head? (n :: rest) =
          reorderLoop cur st B.head? rest := by
        simp [reorderLoop, hc]
      have h := ih cur A B st hspan hrestN hBN
        (by
          intro x
          constructor
          · intro hx
            rcases (hiff x).mp hx with ⟨hx1, hx2⟩
            rcases List.mem_cons.mp hx1 with he | hr
            · exact absurd (he ▸ hx2) hc
            · exact ⟨hr, hx2⟩
          · intro ⟨hx1, hx2⟩
            exact (hiff x).mpr ⟨List.mem_cons_of_mem _ hx1, hx2⟩)
        (fun a ha hr => hA a ha (List.mem_cons_of_mem _ hr))
      rw [step, h, List.filter_cons_of_neg (by simp [hc])]

/-- The reorder pass does nothing when the span is already in target order
(each processed entry equals the cursor, which just advances). -/
theorem reorderLoop_noop : ∀ (ns A cur : List DNode) (st : RangeState),
    st.span = A ++ ns → (A ++ ns).Nodup → (∀ n ∈ ns, n ∈ cur) →
    reorderLoop cur st ns.head? ns = st := by
  intro ns
  induction ns with
  | nil => intro A cur st _ _ _; rfl
  | cons n rest ih =>
    intro A cur st hspan hnodup hmem
    rcases nodup_split hnodup with ⟨hnA, hnrest, _⟩
    have step : reorderLoop cur st (n :: rest).head? (n :: rest) =
        reorderLoop cur st (nextAfter st.span n) rest := by
      simp [reorderLoop, hmem n (List.mem_cons_self _ _)]
    have hnext : nextAfter st.span n = rest.head? := by
      rw [hspan, nextAfter_append hnA, nextAfter_cons_self]
    rw [step, hnext]
    exact ih (A ++ [n]) cur st (by rw [hspan]; simp)
      (by
        have : A ++ [n] ++ rest = A ++ n :: rest := by simp
        rw [this]; exact hnodup)
      (fun x hx => hmem x (List.mem_cons_of_mem _ hx))

/-! ### The insert pass -/

/-- Running the insert pass with the cursor at the head of the suffix `C` of
not-yet-placed preserved nodes: every remaining entry ends up appended after
the already-correct prefix `D`, in entry order. -/
theorem insertLoop_run : ∀ (ns D C : List DNode) (st : RangeState),
    st.span = D ++ C →
    ns.Nodup → (∀ d ∈ D, d ∉ ns) →
    C = ns.filter (fun n => decide (n ∈ C)) →
    (insertLoop st C.head? ns).span = D ++ ns := by
  intro ns
  induction ns with
  | nil =>
    intro D C st hspan _ _ hC
    simp only [List.filter_nil] at hC
    subst hC
    simpa [insertLoop] using hspan
  | cons n rest ih =>
    intro D C st hspan hnsN hD hC
    have hnrest : n ∉ rest := (List.nodup_cons.mp hnsN).1
    have hrestN : rest.Nodup := (List.nodup_cons.mp hnsN).2
    have hnD : n ∉ D := fun h => hD n h (List.mem_cons_self _ _)
    have hD' : ∀ d ∈ D ++ [n], d ∉ rest := by
      intro d hd hr
      rcases List.mem_append.mp hd with h1 | h1
      · exact hD d h1 (List.mem_cons_of_mem _ hr)
      · rcases List.mem_singleton.mp h1 with rfl
        exact hnrest hr
    by_cases hmem : n ∈ C
    · -- the entry is the cursor: advance past it
      have hC' : C = n :: rest.filter (fun m => decide (m ∈ C)) := by
        conv_lhs => rw [hC]
        exact List.filter_cons_of_pos (by simp [hmem])
      have hhead : C.head? = some n := by rw [hC']; rfl
      have hstep : insertLoop st C.head? (n :: rest) =
          insertLoop st (nextAfter st.span n) rest := by
        rw [hhead]; simp [insertLoop]
      have hnext : nextAfter st.span n =
          (rest.filter (fun m => decide (m ∈ C))).head? := by
        conv_lhs => rw [hspan, hC']
        rw [nextAfter_append hnD, nextAfter_cons_self]
      have hC₂ : rest.filter (fun m => decide (m ∈ C)) =
          rest.filter (fun m => decide (m ∈ rest.filter (fun m' => decide (m' ∈ C)))) := by
        apply List.filter_congr
        intro x hx
        refine decide_eq_decide.mpr ?_
        constructor
        · intro h
          rcases List.mem_cons.mp (hC' ▸ h) with he | hr
          · exact absurd (he ▸ hx) hnrest
          · exact hr
        · intro h
          rw [hC']
          exact List.mem_cons_of_mem _ h
      have h := ih (D ++ [n]) (rest.filter (fun m => decide (m ∈ C))) st
        (by rw [hspan]; conv_lhs => rw [hC']
            simp)
        hrestN hD' hC₂
      rw [hstep, hnext, h]
      simp
    · -- a new or later node: it is inserted right before the cursor
      have hC' : C = rest.filter (fun m => decide (m ∈ C)) := by
        conv_lhs => rw [hC]
        exact List.filter_cons_of_neg (by simp [hmem])
      have hCsub : ∀ x ∈ C, x ∈ rest := by
        intro x hx
        rw [hC'] at hx
        exact (List.mem_filter.mp hx).1
      have hcursor : some n ≠ C.head? := by
        cases hCc : C with
        | nil => simp
        | cons c C₂ =>
          have hcr : c ∈ rest := hCsub c (by rw [hCc]; exact List.mem_cons_self _ _)
          simp only [List.head?_cons, ne_eq, Option.some.injEq]
          intro he; exact hnrest (he ▸ hcr)
      have hstep : insertLoop st C.head? (n :: rest) =
          insertLoop (spanInsertBefore st n C.head?) C.head? rest := by
        simp only [insertLoop]
        rw [if_pos hcursor]
      have hnotin : n ∉ st.span := by
        rw [hspan]
        intro h
        rcases List.mem_append.mp h with h | h
        · exact hnD h
        · exact hmem h
      have hspan' : (spanInsertBefore st n C.head?).span = (D ++ [n]) ++ C := by
        simp only [spanInsertBefore, if_neg hnotin]
        cases hCc : C with
        | nil =>
          rw [hCc] at hspan
          simp only [List.head?_nil]
          show st.span.erase n ++ [n] = (D ++ [n]) ++ []
          rw [List.erase_of_not_mem hnotin, hspan]
          simp
        | cons c C₂ =>
          have hcr : c ∈ rest := hCsub c (by rw [hCc]; exact List.mem_cons_self c C₂)
          have hcD : c ∉ D := fun h => hD c h (List.mem_cons_of_mem _ hcr)
          rw [hCc] at hspan
          simp only [List.head?_cons]
          show listInsertBefore (st.span.erase n) n c = (D ++ [n]) ++ c :: C₂
          rw [List.erase_of_not_mem hnotin, hspan, listInsertBefore_append n hcD,
            listInsertBefore_cons_self]
          simp
      have h := ih (D ++ [n]) C (spanInsertBefore st n C.head?) hspan' hrestN hD' hC'
      rw [hstep, h]
      simp

/-- The insert pass does nothing when the span already equals the remaining
entry list: every entry equals the cursor, which just advances. -/
theorem insertLoop_noop : ∀ (ns A : List DNode) (st : RangeState),
    st.span = A ++ ns → (A ++ ns).Nodup →
    insertLoop st ns.head? ns = st := by
  intro ns
  induction ns with
  | nil => intro A st _ _; rfl
  | cons n rest ih =>
    intro A st hspan hnodup
    rcases nodup_split hnodup with ⟨hnA, _, _⟩
    have hstep : insertLoop st (n :: rest).head? (n :: rest) =
        insertLoop st (nextAfter st.span n) rest := by
      simp [insertLoop]
    have hnext : nextAfter st.span n = rest.head? := by
      rw [hspan, nextAfter_append hnA, nextAfter_cons_self]
    rw [hstep, hnext]
    exact ih (A ++ [n]) st (by rw [hspan]; simp)
      (by
        have : A ++ [n] ++ rest = A ++ n :: rest := by simp
        rw [this]; exact hnodup)

/-- The insert pass, before the cursor node `f` has been reached: every
processed entry (whether a preserved node moved out of the leading `X`
region or a brand-new node) is placed, in entry order, directly before `f`;
once `f` is reached the pass continues like `insertLoop_run`.  `X` is the
preserved prefix still sitting before the already-placed block `D`, `R` the
preserved suffix after `f`. -/
theorem insertLoop_phaseA : ∀ (ns₁ : List DNode) (f : DNode) (ns₂ X D R : List DNode)
    (st : RangeState),
    st.span = X ++ D ++ f :: R →
    (ns₁ ++ f :: ns₂).Nodup →
    (∀ d ∈ D, d ∉ ns₁ ++ f :: ns₂) →
    X = ns₁.filter (fun n => decide (n ∈ X)) →
    R = ns₂.filter (fun n => decide (n ∈ R)) →
    (insertLoop st (some f) (ns₁ ++ f :: ns₂)).span = D ++ ns₁ ++ f :: ns₂ := by
  intro ns₁
  induction ns₁ with
  | nil =>
    intro f ns₂ X D R st hspan hnsN hD hX hR
    simp only [List.filter_nil] at hX
    subst hX
    simp only [List.nil_append] at hspan hnsN hD ⊢
    have hfns₂ : f ∉ ns₂ := (List.nodup_cons.mp hnsN).1
    have hfD : f ∉ D := fun h => hD f h (List.mem_cons_self _ _)
    have hstep : insertLoop st (some f) (f :: ns₂) =
        insertLoop st (nextAfter st.span f) ns₂ := by
      simp [insertLoop]
    have hnext : nextAfter st.span f = R.head? := by
      rw [hspan, nextAfter_append hfD, nextAfter_cons_self]
    have h := insertLoop_run ns₂ (D ++ [f]) R st
      (by rw [hspan]; simp)
      (List.nodup_cons.mp hnsN).2
      (by
        intro d hd hr
        rcases List.mem_append.mp hd with h1 | h1
        · exact hD d h1 (List.mem_cons_of_mem _ hr)
        · rcases List.mem_singleton.mp h1 with rfl
          exact hfns₂ hr)
      hR
    rw [hstep, hnext, h]
    simp
  | cons n rest ih =>
    intro f ns₂ X D R st hspan hnsN hD hX hR
    have hnsN' : (n :: (rest ++ f :: ns₂)).Nodup := by simpa using hnsN
    have hnT : n ∉ rest ++ f :: ns₂ := (List.nodup_cons.mp hnsN').1
    have hT : (rest ++ f :: ns₂).Nodup := (List.nodup_cons.mp hnsN').2
    have hnf : n ≠ f := fun he => hnT (he ▸ List.mem_append_right _ (List.mem_cons_self _ _))
    have hnns₂ : n ∉ ns₂ := fun h => hnT (List.mem_append_right _ (List.mem_cons_of_mem _ h))
    have hnrest : n ∉ rest := fun h => hnT (List.mem_append_left _ h)
    have hnD : n ∉ D := fun h => hD n h (List.mem_append_left _ (List.mem_cons_self _ _))
    have hfns₁ : f ∉ n :: rest := (nodup_split hnsN).1
    have hfrest : f ∉ rest := fun h => hfns₁ (List.mem_cons_of_mem _ h)
    have hfD : f ∉ D := fun h =>
      hD f h (List.mem_append_right _ (List.mem_cons_self _ _))
    have hD' : ∀ d ∈ D ++ [n], d ∉ rest ++ f :: ns₂ := by
      intro d hd hr
      rcases List.mem_append.mp hd with h1 | h1
      · refine hD d h1 ?_
        rcases List.mem_append.mp hr with h2 | h2
        · exact List.mem_append_left _ (List.mem_cons_of_mem _ h2)
        · exact List.mem_append_right _ h2
      · rcases List.mem_singleton.mp h1 with rfl
        exact hnT hr
    have hRsub : ∀ x ∈ R, x ∈ ns₂ := by
      intro x hx
      rw [hR] at hx
      exact (List.mem_filter.mp hx).1
    have hstep : insertLoop st (some f) ((n :: rest) ++ f :: ns₂) =
        insertLoop (spanInsertBefore st n (some f)) (some f) (rest ++ f :: ns₂) := by
      simp only [List.cons_append, insertLoop, List.append_eq]
      rw [if_pos (by simp [hnf])]
    by_cases hmem : n ∈ X
    · -- a preserved node moved from the leading region to just before `f`
      have hX' : X = n :: rest.filter (fun m => decide (m ∈ X)) := by
        conv_lhs => rw [hX]
        exact List.filter_cons_of_pos (by simp [hmem])
      have hXsub : ∀ x ∈ rest.filter (fun m => decide (m ∈ X)), x ∈ rest :=
        fun x hx => (List.mem_filter.mp hx).1
      have hfX₂ : f ∉ rest.filter (fun m => decide (m ∈ X)) := fun h => hfrest (hXsub f h)
      have hwas : n ∈ st.span := by
        rw [hspan, hX']
        exact List.mem_append_left _ (List.mem_append_left _ (List.mem_cons_self _ _))
      have hspan' : (spanInsertBefore st n (some f)).span =
          rest.filter (fun m => decide (m ∈ X)) ++ (D ++ [n]) ++ f :: R := by
        simp only [spanInsertBefore, if_pos hwas]
        show listInsertBefore (st.span.erase n) n f = _
        have herase : st.span.erase n =
            rest.filter (fun m => decide (m ∈ X)) ++ D ++ f :: R := by
          rw [hspan]
          conv_lhs => rw [hX']
          simp only [List.cons_append, List.erase_cons_head]
        rw [herase,
          listInsertBefore_append n (by
            intro h
            rcases List.mem_append.mp h with h1 | h1
            · exact hfX₂ h1
            · exact hfD h1),
          listInsertBefore_cons_self]
        simp
      have hX₂ : rest.filter (fun m => decide (m ∈ X)) =
          rest.filter (fun m => decide (m ∈ rest.filter (fun m' => decide (m' ∈ X)))) := by
        apply List.filter_congr
        intro x hx
        refine decide_eq_decide.mpr ?_
        constructor
        · intro h
          rcases List.mem_cons.mp (hX' ▸ h) with he | hr
          · exact absurd (he ▸ hx) hnrest
          · exact hr
        · intro h
          rw [hX']
          exact List.mem_cons_of_mem _ h
      have h := ih f ns₂ (rest.filter (fun m => decide (m ∈ X))) (D ++ [n]) R
        (spanInsertBefore st n (some f)) hspan' hT hD' hX₂ hR
      rw [hstep, h]
      simp
    · -- a brand-new node inserted just before `f`
      have hX' : X = rest.filter (fun m => decide (m ∈ X)) := by
        conv_lhs => rw [hX]
        exact List.filter_cons_of_neg (by simp [hmem])
      have hnotin : n ∉ st.span := by
        rw [hspan]
        intro h
        rcases List.mem_append.mp h with h1 | h1
        · rcases List.mem_append.mp h1 with h2 | h2
          · exact hmem h2
          · exact hnD h2
        · rcases List.mem_cons.mp h1 with h2 | h2
          · exact hnf h2
          · exact hnns₂ (hRsub n h2)
      have hspan' : (spanInsertBefore st n (some f)).span = X ++ (D ++ [n]) ++ f :: R := by
        simp only [spanInsertBefore, if_neg hnotin]
        show listInsertBefore (st.span.erase n) n f = _
        rw [List.erase_of_not_mem hnotin, hspan,
          listInsertBefore_append n (by
            intro h
            rcases List.mem_append.mp h with h1 | h1
            · exact hfns₁ (by
                rw [hX] at h1
                exact (List.mem_filter.mp h1).1)
            · exact hfD h1),
          listInsertBefore_cons_self]
        simp
      have h := ih f ns₂ X (D ++ [n]) R (spanInsertBefore st n (some f)) hspan' hT hD' hX' hR
      rw [hstep, h]
      simp

/-! ### `replaceWith` produces exactly the normalized list -/

theorem mappableOf_mem {cur : List DNode} {values : List DValue} {t : DNode}
    (h : t ∈ mappableOf cur values) :
    t ∈ cur ∧ t.isText = true ∧ DValue.node t ∉ values := by
  rcases List.mem_filter.mp h with ⟨h1, h2⟩
  rcases List.mem_filter.mp h1 with ⟨h3, h4⟩
  exact ⟨h3, h4, by simpa using h2⟩

theorem mappableOf_nodup {cur : List DNode} (values : List DValue) (h : cur.Nodup) :
    (mappableOf cur values).Nodup := (h.filter _).filter _

/-- The three mutation passes, composed as in `replaceWith`, turn any
span equal to the snapshot `S` into exactly the normalized node list `N`
(for distinct nodes). -/
theorem passes_span (S N : List DNode) (st1 : RangeState)
    (hspan : st1.span = S) (hSN : S.Nodup) (hNN : N.Nodup) :
    (insertLoop
      (match S.find? (fun n => decide (n ∈ N)) with
        | none => removeGone S N st1
        | some f => reorderLoop S (removeGone S N st1) (some f) N)
      (S.find? (fun n => decide (n ∈ N))) N).span = N := by
  have hrem : (removeGone S N st1).span = S.filter (fun n => decide (n ∈ N)) := by
    have := removeGone_spec S N st1 [] (by simpa using hspan) (by simpa using hSN)
    simpa using this
  rcases hfp : S.find? (fun n => decide (n ∈ N)) with _ | f
  · -- no preserved node: the removal pass empties the span, the insert pass
    -- appends every normalized node in order
    have hBnil : S.filter (fun n => decide (n ∈ N)) = [] := by
      rw [find?_eq_head?_filter] at hfp
      exact List.head?_eq_none_iff.mp hfp
    have h := insertLoop_run N [] [] (removeGone S N st1)
      (by rw [hrem, hBnil]; rfl)
      hNN (by intro d hd; cases hd)
      (by simp)
    simpa using h
  · have hfS : f ∈ S := List.mem_of_find?_eq_some hfp
    have hfN : f ∈ N := by
      have h := List.find?_some hfp
      simpa using h
    have hBhead : (S.filter (fun n => decide (n ∈ N))).head? = some f := by
      rw [← find?_eq_head?_filter, hfp]
    have hreo := reorderLoop_spec N S [] (S.filter (fun n => decide (n ∈ N)))
      (removeGone S N st1)
      (by simpa using hrem)
      hNN (hSN.filter _)
      (by
        intro x
        rw [List.mem_filter]
        constructor
        · intro ⟨h1, h2⟩; exact ⟨of_decide_eq_true h2, h1⟩
        · intro ⟨h1, h2⟩; exact ⟨h2, decide_eq_true h1⟩)
      (by intro a ha; cases ha)
    rw [hBhead] at hreo
    rcases List.append_of_mem hfN with ⟨N₁, N₂, hsplit⟩
    have hX : N₁.filter (fun n => decide (n ∈ S)) =
        N₁.filter (fun n => decide (n ∈ N₁.filter (fun m => decide (m ∈ S)))) := by
      apply List.filter_congr
      intro x hx
      refine decide_eq_decide.mpr ?_
      constructor
      · intro h; exact List.mem_filter.mpr ⟨hx, decide_eq_true h⟩
      · intro h; exact of_decide_eq_true (List.mem_filter.mp h).2
    have hR : N₂.filter (fun n => decide (n ∈ S)) =
        N₂.filter (fun n => decide (n ∈ N₂.filter (fun m => decide (m ∈ S)))) := by
      apply List.filter_congr
      intro x hx
      refine decide_eq_decide.mpr ?_
      constructor
      · intro h; exact List.mem_filter.mpr ⟨hx, decide_eq_true h⟩
      · intro h; exact of_decide_eq_true (List.mem_filter.mp h).2
    have hins := insertLoop_phaseA N₁ f N₂
      (N₁.filter (fun n => decide (n ∈ S))) []
      (N₂.filter (fun n => decide (n ∈ S)))
      (reorderLoop S (removeGone S N st1) (some f) N)
      (by
        rw [hreo]
        conv_lhs => rw [hsplit]
        rw [List.filter_append, List.filter_cons_of_pos (by simp [hfS])]
        simp)
      (hsplit ▸ hNN)
      (by intro d hd; cases hd)
      hX hR
    show (insertLoop (reorderLoop S (removeGone S N st1) (some f) N) (some f) N).span = N
    simp only [List.nil_append] at hins
    rw [← hsplit] at hins
    exact hins

theorem replaceWith_span (st0 : RangeState) (values : List DValue)
    (hN : st0.span.Nodup)
    (hid : ∀ n ∈ st0.span, n.id < st0.nextId)
    (hvN : (vNodes values).Nodup)
    (hvid : ∀ n ∈ vNodes values, n.id < st0.nextId) :
    (replaceWith st0 values).span =
      (normalizeValues values (mappableOf st0.span values) st0).1 := by
  have hNN : (normalizeValues values (mappableOf st0.span values) st0).1.Nodup :=
    norm_nodup values _ st0 (mappableOf_nodup values hN)
      (fun t ht => hid t (mappableOf_mem ht).1)
      (fun t ht => (mappableOf_mem ht).2.2) hvN hvid
  exact passes_span st0.span _ _ (norm_state values _ st0).1 hN hNN

/-! ### Claim C1 -/

/-- C1 (amended): for a node-range span of pairwise-distinct nodes and an
argument list whose tree-node entries are pairwise distinct (a DOM node
cannot occupy two positions) and whose ids are live (below the fresh-id
counter), after `replaceWith(...values)` the span contains, in order,
exactly one node per entry of `values`: each tree-node entry appears
itself, and each string entry appears as a text node whose text equals
that string. -/
theorem c1_replaceWith_span_matches (st0 : RangeState) (values : List DValue)
    (hN : st0.span.Nodup)
    (hid : ∀ n ∈ st0.span, n.id < st0.nextId)
    (hvN : (vNodes values).Nodup)
    (hvid : ∀ n ∈ vNodes values, n.id < st0.nextId) :
    List.Forall₂ valueMatches values (replaceWith st0 values).span := by
  rw [replaceWith_span st0 values hN hid hvN hvid]
  have h := norm_prov values (mappableOf st0.span values) st0
    (fun t ht => (mappableOf_mem ht).2.1)
  refine h.imp ?_
  intro a b hp
  cases a with
  | node m => exact hp
  | str s => exact ⟨hp.1, hp.2.1⟩
  | other r => exact ⟨hp.1, hp.2.1⟩

/-- C1 witness: a concrete span and argument list satisfying the
hypotheses, with the theorem applied to them. -/
theorem c1_replaceWith_span_matches_witness :
    List.Forall₂ valueMatches [DValue.str "x", DValue.node ⟨0, false, ""⟩]
      (replaceWith ⟨[⟨0, false, ""⟩], 1, 0, 0, 0, 0, 0⟩
        [DValue.str "x", DValue.node ⟨0, false, ""⟩]).span :=
  c1_replaceWith_span_matches ⟨[⟨0, false, ""⟩], 1, 0, 0, 0, 0, 0⟩
    [DValue.str "x", DValue.node ⟨0, false, ""⟩]
    (by decide) (by decide) (by decide) (by decide)

/-- C1 counterexample: the claim as frozen quantifies over *every* argument
list, but passing the same tree node twice leaves a single node in the span
(DOM `insertBefore` relocates the node), so the span does not hold one node
per entry. -/
theorem c1_counterexample :
    (replaceWith ⟨[], 1, 0, 0, 0, 0, 0⟩
      [DValue.node ⟨0, false, ""⟩, DValue.node ⟨0, false, ""⟩]).span = [⟨0, false, ""⟩] ∧
    ¬ List.Forall₂ valueMatches
      [DValue.node ⟨0, false, ""⟩, DValue.node ⟨0, false, ""⟩]
      (replaceWith ⟨[], 1, 0, 0, 0, 0, 0⟩
        [DValue.node ⟨0, false, ""⟩, DValue.node ⟨0, false, ""⟩]).span := by
  refine ⟨by decide, fun h => ?_⟩
  exact absurd h.length_eq (by decide)

/-! ### Claim C3: idempotence -/

/-- Entrywise relation between a value list and a span that `replaceWith`
establishes: node entries appear themselves; string (and coerced) entries
appear as text nodes with the right text that were not passed as nodes. -/
def provRel (vs : List DValue) : DValue → DNode → Prop
  | DValue.node m, n => n = m
  | DValue.str s, n => n.isText = true ∧ n.text = s ∧ DValue.node n ∉ vs
  | DValue.other r, n => n.isText = true ∧ n.text = r ∧ DValue.node n ∉ vs

/-- The nodes of a span sitting at the non-node positions of a value list
(the text nodes that the strings were materialized into). -/
def strNodesOf : List DValue → List DNode → List DNode
  | DValue.node _ :: vs, _ :: ns => strNodesOf vs ns
  | _ :: vs, n :: ns => n :: strNodesOf vs ns
  | _, _ => []

theorem strProv_to_provRel {vs : List DValue} {mp : List DNode} {k : Nat} {ns : List DNode}
    (hmp : ∀ t ∈ mp, DValue.node t ∉ vs)
    (hvid : ∀ n ∈ vNodes vs, n.id < k)
    (h : List.Forall₂ (strProv mp k) vs ns) :
    List.Forall₂ (provRel vs) vs ns := by
  refine h.imp ?_
  intro a b hp
  cases a with
  | node m => exact hp
  | str s =>
    rcases hp with ⟨h1, h2, h3 | h3⟩
    · exact ⟨h1, h2, hmp b h3⟩
    · exact ⟨h1, h2, fun hmem => absurd (hvid b (vNodes_mem hmem)) (Nat.not_lt.mpr h3)⟩
  | other r =>
    rcases hp with ⟨h1, h2, h3⟩
    exact ⟨h1, h2, fun hmem => absurd (hvid b (vNodes_mem hmem)) (Nat.not_lt.mpr h3)⟩

theorem mappableOf_cons (n : DNode) (ns : List DNode) (vs : List DValue) :
    mappableOf (n :: ns) vs =
      if n.isText = true ∧ DValue.node n ∉ vs then n :: mappableOf ns vs
      else mappableOf ns vs := by
  by_cases h1 : n.isText = true
  · by_cases h2 : DValue.node n ∉ vs
    · rw [if_pos ⟨h1, h2⟩]
      unfold mappableOf
      rw [List.filter_cons_of_pos (by simpa using h1), List.filter_cons_of_pos (by simpa using h2)]
    · rw [if_neg (fun hh => h2 hh.2)]
      unfold mappableOf
      rw [List.filter_cons_of_pos (by simpa using h1),
        List.filter_cons_of_neg (by simpa using h2)]
  · rw [if_neg (fun hh => h1 hh.1)]
    unfold mappableOf
    rw [List.filter_cons_of_neg (by simpa using h1)]

/-- When the span already matches the values, the mappable text nodes are
exactly the string-position nodes, in order (node entries are filtered out
by the `includes` check, string-position nodes are kept). -/
theorem mappable_fixed (vs0 : List DValue) {vs : List DValue} {ns : List DNode}
    (h : List.Forall₂ (provRel vs0) vs ns) :
    (∀ v ∈ vs, v ∈ vs0) →
    mappableOf ns vs0 = strNodesOf vs ns := by
  induction h with
  | nil => intro _; rfl
  | @cons a b l₁ l₂ hp htail ih =>
    intro hsub
    cases a with
    | node m =>
      have hb : b = m := hp
      rw [mappableOf_cons,
        if_neg (fun hh => hh.2 (by rw [hb]; exact hsub _ (List.mem_cons_self _ _)))]
      rw [show strNodesOf (DValue.node m :: l₁) (b :: l₂) = strNodesOf l₁ l₂ from rfl]
      exact ih (fun v hv => hsub v (List.mem_cons_of_mem _ hv))
    | str s =>
      rcases hp with ⟨h1, _, h3⟩
      rw [mappableOf_cons, if_pos ⟨h1, h3⟩]
      rw [show strNodesOf (DValue.str s :: l₁) (b :: l₂) = b :: strNodesOf l₁ l₂ from rfl]
      rw [ih (fun v hv => hsub v (List.mem_cons_of_mem _ hv))]
    | other r =>
      rcases hp with ⟨h1, _, h3⟩
      rw [mappableOf_cons, if_pos ⟨h1, h3⟩]
      rw [show strNodesOf (DValue.other r :: l₁) (b :: l₂) = b :: strNodesOf l₁ l₂ from rfl]
      rw [ih (fun v hv => hsub v (List.mem_cons_of_mem _ hv))]

/-- Renormalizing a span that already matches the values reproduces the
span itself and creates nothing: each string finds, in order, exactly the
text node it had produced. -/
theorem norm_fixed (vs0 : List DValue) {vs : List DValue} {ns : List DNode}
    (h : List.Forall₂ (provRel vs0) vs ns) :
    (∀ r : String, DValue.other r ∉ vs) →
    ∀ st : RangeState, normalizeValues vs (strNodesOf vs ns) st = (ns, st) := by
  induction h with
  | nil => intro _ st; rfl
  | @cons a b l₁ l₂ hp htail ih =>
    intro hno st
    cases a with
    | node m =>
      have hb : b = m := hp
      rw [show strNodesOf (DValue.node m :: l₁) (b :: l₂) = strNodesOf l₁ l₂ from rfl]
      simp only [normalizeValues]
      rw [ih (fun r hr => hno r (List.mem_cons_of_mem _ hr)) st, hb]
    | str s =>
      rcases hp with ⟨_, h2, _⟩
      rw [show strNodesOf (DValue.str s :: l₁) (b :: l₂) = b :: strNodesOf l₁ l₂ from rfl]
      simp only [normalizeValues, findAndRemove, if_pos h2]
      rw [ih (fun r hr => hno r (List.mem_cons_of_mem _ hr)) st]
    | other r =>
      exact absurd (List.mem_cons_self _ _) (hno r)

/-- A `replaceWith` call on a span that already matches the values performs
no mutation at all: the whole state is returned unchanged. -/
theorem replaceWith_fixed (st1 : RangeState) (values : List DValue)
    (hprov : List.Forall₂ (provRel values) values st1.span)
    (hN : st1.span.Nodup)
    (hno : NoOther values) :
    replaceWith st1 values = st1 := by
  have hmp : mappableOf st1.span values = strNodesOf values st1.span :=
    mappable_fixed values hprov (fun v hv => hv)
  have hnormfix : normalizeValues values (mappableOf st1.span values) st1 =
      (st1.span, st1) := by
    rw [hmp]
    exact norm_fixed values hprov hno st1
  have hfp : st1.span.find? (fun n => decide (n ∈ st1.span)) = st1.span.head? := by
    rw [find?_eq_head?_filter, List.filter_eq_self.mpr (fun a ha => by simpa using ha)]
  show insertLoop _ _ _ = st1
  rw [hnormfix]
  rw [hfp]
  rw [removeGone_noop st1.span st1.span st1 (fun c hc => hc)]
  cases hh : st1.span.head? with
  | none =>
    have hnil : st1.span = [] := List.head?_eq_none_iff.mp hh
    rw [hnil]
    rfl
  | some f =>
    show insertLoop (reorderLoop st1.span st1 (some f) st1.span) (some f) st1.span = st1
    rw [← hh,
      reorderLoop_noop st1.span [] st1.span st1 (by simp) (by simpa using hN) (fun n hn => hn),
      insertLoop_noop st1.span [] st1 (by simp) (by simpa using hN)]

/-- C3 (amended): for a well-formed span and a value list of strings and
pairwise-distinct tree nodes (no unsupported values, live ids), calling
`replaceWith` a second time with the same values performs zero tree
mutations: the second call returns the state of the first call unchanged
(no node creation, insertion, move, or removal — all four counters and the
span are untouched). -/
theorem c3_replaceWith_idempotent (st0 : RangeState) (values : List DValue)
    (hN : st0.span.Nodup)
    (hid : ∀ n ∈ st0.span, n.id < st0.nextId)
    (hvN : (vNodes values).Nodup)
    (hvid : ∀ n ∈ vNodes values, n.id < st0.nextId)
    (hno : NoOther values) :
    replaceWith (replaceWith st0 values) values = replaceWith st0 values := by
  apply replaceWith_fixed
  · rw [replaceWith_span st0 values hN hid hvN hvid]
    exact strProv_to_provRel (fun t ht => (mappableOf_mem ht).2.2) hvid
      (norm_prov values _ st0 (fun t ht => (mappableOf_mem ht).2.1))
  · rw [replaceWith_span st0 values hN hid hvN hvid]
    exact norm_nodup values _ st0 (mappableOf_nodup values hN)
      (fun t ht => hid t (mappableOf_mem ht).1)
      (fun t ht => (mappableOf_mem ht).2.2) hvN hvid
  · exact hno

/-- C3 witness: a concrete range updated twice with the same values; the
second call changes nothing. -/
theorem c3_replaceWith_idempotent_witness :
    replaceWith (replaceWith ⟨[⟨0, true, "y"⟩], 1, 0, 0, 0, 0, 0⟩
        [DValue.str "x", DValue.str "y"]) [DValue.str "x", DValue.str "y"] =
      replaceWith ⟨[⟨0, true, "y"⟩], 1, 0, 0, 0, 0, 0⟩ [DValue.str "x", DValue.str "y"] :=
  c3_replaceWith_idempotent ⟨[⟨0, true, "y"⟩], 1, 0, 0, 0, 0, 0⟩
    [DValue.str "x", DValue.str "y"] (by decide) (by decide) (by decide) (by decide)
    (by intro r h; simp at h)

/-- C3 counterexample: with the same tree node passed twice, the second
call still performs two relocation mutations (the claim as frozen
quantifies over every argument list). -/
theorem c3_counterexample :
    replaceWith (replaceWith ⟨[], 1, 0, 0, 0, 0, 0⟩
        [DValue.node ⟨0, false, ""⟩, DValue.node ⟨0, false, ""⟩])
        [DValue.node ⟨0, false, ""⟩, DValue.node ⟨0, false, ""⟩] ≠
      replaceWith ⟨[], 1, 0, 0, 0, 0, 0⟩
        [DValue.node ⟨0, false, ""⟩, DValue.node ⟨0, false, ""⟩] ∧
    (replaceWith (replaceWith ⟨[], 1, 0, 0, 0, 0, 0⟩
        [DValue.node ⟨0, false, ""⟩, DValue.node ⟨0, false, ""⟩])
        [DValue.node ⟨0, false, ""⟩, DValue.node ⟨0, false, ""⟩]).moved = 3 ∧
    (replaceWith ⟨[], 1, 0, 0, 0, 0, 0⟩
        [DValue.node ⟨0, false, ""⟩, DValue.node ⟨0, false, ""⟩]).moved = 1 := by
  refine ⟨by decide, by decide, by decide⟩

/-! ### Claim C4 -/

/-- The §8 example scenario: a node-range initially filled by
`replaceWith("a","b","c")`. -/
def c4_call1 : RangeState :=
  replaceWith ⟨[], 0, 0, 0, 0, 0, 0⟩ [DValue.str "a", DValue.str "b", DValue.str "c"]

/-- The follow-up call `replaceWith("b","c","a")` on the same range. -/
def c4_call2 : RangeState :=
  replaceWith c4_call1 [DValue.str "b", DValue.str "c", DValue.str "a"]

/-- C4 counterexample: in the `["a","b","c"]` → `["b","c","a"]` scenario the
second call performs four `insertBefore` relocations of nodes already in the
span (two in the reorder pass and two more in the insert pass, which starts
again from the first preserved node), not the two the claim states. -/
theorem c4_counterexample :
    c4_call1.moved = 0 ∧ c4_call2.moved = 4 ∧ c4_call2.moved ≠ 2 := by
  refine ⟨by decide, by decide, by decide⟩

/-- C4 (amended): the second call reuses all three existing text nodes — it
creates no node, inserts no new node and removes none — and reaches the new
order with exactly four node relocations. -/
theorem c4_reuse_and_moves :
    c4_call1.created = 3 ∧
    c4_call2.created = c4_call1.created ∧
    c4_call2.inserted = c4_call1.inserted ∧
    c4_call2.removed = c4_call1.removed ∧
    c4_call2.moved = c4_call1.moved + 4 ∧
    c4_call2.span = [⟨1, true, "b"⟩, ⟨2, true, "c"⟩, ⟨0, true, "a"⟩] := by
  refine ⟨by decide, by decide, by decide, by decide, by decide, by decide⟩

/-! ### Claim C5: rejection of unsupported values -/

/-- `NodeRangeImpl.item`: walk from the starting boundary's next sibling
`index` steps, `null` when the walk leaves the span.  (The same counting
walk implements `LiveRootNodeListImpl.item` over its tracked array.) -/
def itemWalk : List DNode → Nat → Option DNode
  | [], _ => none
  | n :: _, 0 => some n
  | _ :: rest, i + 1 => itemWalk rest i

/-- Replace the first occurrence of `old` by `n`
(`parentNode.replaceChild(n, old)` within the span). -/
def replaceInList : List DNode → DNode → DNode → List DNode
  | [], _, _ => []
  | a :: rest, n, old => if a = old then n :: rest else a :: replaceInList rest n old

/-- The shared tail of the numeric-index `set` trap of `NodeRangeImpl`'s
proxy, after the value was normalized to a node: replace the node at the
index; append when the index equals the span length; otherwise refuse the
assignment (return `false`) without touching the tree. -/
def setIndexNode (st : RangeState) (index : Nat) (node : DNode) : RangeState :=
  match itemWalk st.span index with
  | some old =>
    { st with span := replaceInList st.span node old, replaced := st.replaced + 1 }
  | none =>
    if index = st.span.length then
      { st with span := st.span ++ [node], inserted := st.inserted + 1 }
    else st

/-- The numeric-index `set` trap of `NodeRangeImpl`'s proxy: a value that
is neither a string nor a node is rejected with a `TypeError` *before*
the value is normalized and before any lookup or mutation; a string is
materialized as a fresh text node; then the node is assigned. -/
def nodeRangeSetIndex (st : RangeState) (index : Nat) (v : DValue) : Except String RangeState :=
  match v with
  | DValue.other r =>
    Except.error ("TypeError: Only strings and DOM Nodes can be set to indexes of a NodeRange, "
      ++ r ++ " was provided")
  | DValue.str s =>
    Except.ok (setIndexNode
      { st with nextId := st.nextId + 1, created := st.created + 1 }
      index (freshText st.nextId s))
  | DValue.node n => Except.ok (setIndexNode st index n)

/-- C5 counterexample: `replaceWith` does *not* reject a value that is
neither a string nor a node — the failing `instanceof Node` test and the
never-true `nodeValue === value` comparison route it into
`document.createTextNode`, which coerces it to a string; the call completes
and mutates the span.  So the claimed TypeError-before-any-mutation
behaviour does not hold for `replaceWith`. -/
theorem c5_counterexample :
    (replaceWith ⟨[], 0, 0, 0, 0, 0, 0⟩ [DValue.other "42"]).span = [⟨0, true, "42"⟩] ∧
    (replaceWith ⟨[], 0, 0, 0, 0, 0, 0⟩ [DValue.other "42"]).created = 1 ∧
    (replaceWith ⟨[], 0, 0, 0, 0, 0, 0⟩ [DValue.other "42"]).inserted = 1 := by
  refine ⟨by decide, by decide, by decide⟩

/-- C5 (amended): the TypeError-class, rejected-before-any-mutation
behaviour belongs to the indexed assignment on the `NodeRange` proxy, not
to `replaceWith`: setting any index of a node range to a value that is
neither a string nor a tree node fails synchronously with the TypeError
before any lookup or tree mutation, for every range state and index. -/
theorem c5_setIndex_rejects (st : RangeState) (index : Nat) (r : String) :
    nodeRangeSetIndex st index (DValue.other r) =
      Except.error ("TypeError: Only strings and DOM Nodes can be set to indexes of a NodeRange, "
        ++ r ++ " was provided") := rfl

/-! ### Claim C9: orphaned boundary sentinels -/

/-- What the engine can see of a node range's boundary sentinels in the
host tree: the parent node (by id) of the starting boundary, `none` once a
third party removed the sentinel from its parent. -/
structure Boundaries where
  startParent : Option Nat
deriving DecidableEq, Repr

/-- The error message of `NodeRangeImpl`'s `parentNode` getter. -/
def boundaryErrorMsg : String :=
  "The boundary nodes used by this polyfill no longer have a parent node because they were " ++
  "removed from it by a third party. Therefore, the parent node of this node range cannot be " ++
  "located."

/-- `NodeRangeImpl.parentNode`: `startingBoundary.parentNode`, with an
explicit, descriptive error instead of returning `null`. -/
def nodeRangeParentNode (b : Boundaries) : Except String Nat :=
  match b.startParent with
  | none => Except.error boundaryErrorMsg
  | some p => Except.ok p

/-- A host-tree mutation primitive call, with the parent it is made on.
The reconciliation helpers of `NodeRangeImpl` all resolve `this.parentNode`
first and then issue one of these calls. -/
inductive HostCall where
  | replaceChild (parent : Nat) (newNode oldNode : DNode)
  | insertBefore (parent : Nat) (newNode refNode : DNode)
  | removeChild (parent : Nat) (node : DNode)
deriving DecidableEq, Repr

/-- `NodeRangeImpl.replaceNode`. -/
def nodeRangeReplaceNode (b : Boundaries) (newNode oldNode : DNode) : Except String HostCall :=
  match nodeRangeParentNode b with
  | Except.error e => Except.error e
  | Except.ok p => Except.ok (HostCall.replaceChild p newNode oldNode)

/-- `NodeRangeImpl.insertBefore` (`refNode || endingBoundary`). -/
def nodeRangeInsertBefore (b : Boundaries) (endB : DNode) (newNode : DNode)
    (refNode : Option DNode) : Except String HostCall :=
  match nodeRangeParentNode b with
  | Except.error e => Except.error e
  | Except.ok p => Except.ok (HostCall.insertBefore p newNode (refNode.getD endB))

/-- `NodeRangeImpl.appendNode`. -/
def nodeRangeAppendNode (b : Boundaries) (endB : DNode) (node : DNode) : Except String HostCall :=
  match nodeRangeParentNode b with
  | Except.error e => Except.error e
  | Except.ok p => Except.ok (HostCall.insertBefore p node endB)

/-- `NodeRangeImpl.removeNode`. -/
def nodeRangeRemoveNode (b : Boundaries) (node : DNode) : Except String HostCall :=
  match nodeRangeParentNode b with
  | Except.error e => Except.error e
  | Except.ok p => Except.ok (HostCall.removeChild p node)

/-- C9: once a boundary sentinel has been removed from its parent by
external code, the `parentNode` lookup and every reconciliation operation
that needs the span's parent fail synchronously with the explicit,
descriptive error — no operation dereferences the missing parent. -/
theorem c9_orphaned_boundary_fails (b : Boundaries) (hb : b.startParent = none)
    (endB newNode oldNode node : DNode) (refNode : Option DNode) :
    nodeRangeParentNode b = Except.error boundaryErrorMsg ∧
    nodeRangeReplaceNode b newNode oldNode = Except.error boundaryErrorMsg ∧
    nodeRangeInsertBefore b endB newNode refNode = Except.error boundaryErrorMsg ∧
    nodeRangeAppendNode b endB node = Except.error boundaryErrorMsg ∧
    nodeRangeRemoveNode b node = Except.error boundaryErrorMsg := by
  have h : nodeRangeParentNode b = Except.error boundaryErrorMsg := by
    rw [nodeRangeParentNode, hb]
  refine ⟨h, ?_, ?_, ?_, ?_⟩ <;>
    simp [nodeRangeReplaceNode, nodeRangeInsertBefore, nodeRangeAppendNode,
      nodeRangeRemoveNode, h]

/-- C9 witness: a concrete orphaned boundary pair, with the theorem applied
to it. -/
theorem c9_orphaned_boundary_fails_witness :
    nodeRangeParentNode ⟨none⟩ = Except.error boundaryErrorMsg ∧
    nodeRangeReplaceNode ⟨none⟩ ⟨1, true, "a"⟩ ⟨2, true, "b"⟩ =
      Except.error boundaryErrorMsg ∧
    nodeRangeInsertBefore ⟨none⟩ ⟨0, false, ""⟩ ⟨1, true, "a"⟩ none =
      Except.error boundaryErrorMsg ∧
    nodeRangeAppendNode ⟨none⟩ ⟨0, false, ""⟩ ⟨1, true, "a"⟩ =
      Except.error boundaryErrorMsg ∧
    nodeRangeRemoveNode ⟨none⟩ ⟨1, true, "a"⟩ = Except.error boundaryErrorMsg :=
  c9_orphaned_boundary_fails ⟨none⟩ rfl ⟨0, false, ""⟩ ⟨1, true, "a"⟩ ⟨2, true, "b"⟩
    ⟨1, true, "a"⟩ none

/-! ### Claim C8: the Root-Span Tracker -/

/-- `LiveRootNodeListImpl`: despite the name, the constructor *copies* the
container's current child list (`this.trackedNodes = [...nodesContainer.childNodes]`)
and every accessor then iterates this stored array. -/
structure LiveRootNodeList where
  trackedNodes : List DNode
deriving DecidableEq, Repr

/-- The `LiveRootNodeListImpl` constructor, applied to the instance
fragment's child nodes at materialization time. -/
def liveRootNodeListInit (containerChildNodes : List DNode) : LiveRootNodeList :=
  ⟨containerChildNodes⟩

/-- `LiveRootNodeListImpl.item`: count through `values()` (which iterates
`trackedNodes.entries()`) up to the index. -/
def rootListItem (l : LiveRootNodeList) (index : Nat) : Option DNode :=
  itemWalk l.trackedNodes index

/-- `LiveRootNodeListImpl.length`: count the entries of the tracked
array. -/
def rootListLen (l : LiveRootNodeList) : Nat :=
  l.trackedNodes.length

/-- Modelled from the spec: the *live view* reading of the Root-Span
Tracker — at every access, indexing yields the instance's current
contributed child nodes (whatever they are at access time), not a captured
set. -/
def liveViewItemSpec (currentChildNodes : List DNode) (index : Nat) : Option DNode :=
  itemWalk currentChildNodes index

/-- C8 counterexample: the tracker is a snapshot, not a live view.  For an
instance materialized with children `[n₀, n₁]` whose second child is later
removed by external code (current children `[n₀]`), indexing the tracker
still yields the captured `n₁` where the live view of the current children
yields nothing. -/
theorem c8_counterexample :
    rootListItem (liveRootNodeListInit [⟨0, false, ""⟩, ⟨1, false, ""⟩]) 1 =
      some ⟨1, false, ""⟩ ∧
    liveViewItemSpec [⟨0, false, ""⟩] 1 = none ∧
    rootListItem (liveRootNodeListInit [⟨0, false, ""⟩, ⟨1, false, ""⟩]) 1 ≠
      liveViewItemSpec [⟨0, false, ""⟩] 1 := by
  refine ⟨by decide, by decide, by decide⟩

/-- C8 (amended): the root-node view is a one-time snapshot: for every
container and index, indexing and measuring the view yields exactly the
child list captured at materialization time, with no dependence on the
container's later contents. -/
theorem c8_snapshot_semantics (containerChildNodes : List DNode) (index : Nat) :
    rootListItem (liveRootNodeListInit containerChildNodes) index =
      itemWalk containerChildNodes index ∧
    rootListLen (liveRootNodeListInit containerChildNodes) =
      containerChildNodes.length :=
  ⟨rfl, rfl⟩

/-!
### The markup scanner of `document.createDynamicTemplate`

The scanner is embedded over `List Char` fragments.  JavaScript string
primitives are modelled one to one: `indexOf(pat, from)` as
`indexOfFrom` (`none` for `-1`), `charAt(i)` tests as `charTest` (always
false past either end, as a regex test of the empty string is), `slice` as
`drop`/`take`.  The two regular expressions of the scanner are compiled by
hand into decision procedures (`completedValueTest`, with the backtracking
analysis in its comment, and the character classes).
-/

/-- JavaScript `/\s/`: the whitespace class (ASCII whitespace plus the
Unicode space separators, NBSP, BOM and the line separators). -/
def wsChar (c : Char) : Bool :=
  c = ' ' || c = '\t' || c = '\n' || c = '\x0b' || c = '\x0c' || c = '\r' ||
  c = ' ' || c = ' ' || (decide (' ' ≤ c) && decide (c ≤ ' ')) ||
  c = ' ' || c = ' ' || c = ' ' || c = ' ' || c = '　' ||
  c = '﻿'

/-- The element-name class `[^\s:=/>]` (used both by the namespace detector
and by the scanner when skipping a tag name). -/
def nameChar (c : Char) : Bool :=
  !(wsChar c) && c ≠ ':' && c ≠ '=' && c ≠ '/' && c ≠ '>'

/-- A character-class test of `charAt(i)`: false when `i` is out of range
(JS `charAt` yields `""` there and no single-character class matches the
empty string). -/
def charTest (p : Char → Bool) (frag : List Char) (i : Nat) : Bool :=
  match frag[i]? with
  | some c => p c
  | none => false

/-- The number of leading characters of `l` matching `p`. -/
def runLen (p : Char → Bool) : List Char → Nat
  | [] => 0
  | c :: rest => if p c then runLen p rest + 1 else 0

/-- `while (p(charAt(pos))) pos++`, starting at `i`. -/
def skipWhileP (p : Char → Bool) (frag : List Char) (i : Nat) : Nat :=
  i + runLen p (frag.drop i)

/-- Character-list prefix test: does the first list begin the second? -/
def isPrefixChars : List Char → List Char → Bool
  | [], _ => true
  | _ :: _, [] => false
  | p :: ps, c :: cs => if p = c then isPrefixChars ps cs else false

/-- Does `pat` occur in `frag` starting exactly at `i`
(`fragment.startsWith(pat, i)`)? -/
def substrAt (frag pat : List Char) (i : Nat) : Bool :=
  isPrefixChars pat (frag.drop i)

/-- The first index of `l` at which `pat` starts, `none` when it does not
occur (for a nonempty `pat`). -/
def findSub (pat : List Char) : List Char → Option Nat
  | [] => if isPrefixChars pat ([] : List Char) then some 0 else none
  | c :: rest =>
    if isPrefixChars pat (c :: rest) then some 0
    else (findSub pat rest).map (· + 1)

/-- `fragment.indexOf(pat, start)` (`none` for `-1`). -/
def indexOfFrom (frag pat : List Char) (start : Nat) : Option Nat :=
  (findSub pat (frag.drop start)).map (· + start)

/-- `fragment.lastIndexOf(c)` (`none` for `-1`). -/
def lastIndexOfChar : List Char → Char → Option Nat
  | [], _ => none
  | a :: rest, c =>
    match lastIndexOfChar rest c with
    | some j => some (j + 1)
    | none => if a = c then some 0 else none

/-- The third alternative `[^\s"']*(?:\s|$)` of the completed-value regex,
anchored at the start of `l`: the quantifier is greedy but every character
it can consume is non-whitespace, so backtracking can only succeed right
after the maximal run — the test holds iff the character following that
run is whitespace or the end of the string (in particular not a quote). -/
def unquotedTest (l : List Char) : Bool :=
  let j := runLen (fun c => !(wsChar c) && c ≠ '"' && c ≠ '\'') l
  match l[j]? with
  | none => true
  | some c => wsChar c

/-- `/^\s*(?:"[^"]*"|'[^']*'|[^\s"']*(?:\s|$))/.test(l)` — does the text
after the last `=` already form a complete value?  Case analysis on the
first character: the empty string matches (empty run plus `$`); a leading
whitespace character matches at once (`\s*` consumes nothing, the third
alternative's empty run is followed by `\s`); a leading double/single quote
can only match the corresponding quoted alternative, which succeeds iff a
closing quote exists; anything else leaves only the unquoted
alternative. -/
def completedValueTest : List Char → Bool
  | [] => true
  | c :: t =>
    if wsChar c then true
    else if c = '"' then t.contains '"'
    else if c = '\'' then t.contains '\''
    else unquotedTest (c :: t)

/-- The backward walk over whitespace before the `=` at `valueSeparator`
(`attributeNameEnd` in the source): the position of the last
non-whitespace character before the separator, `none` when the walk runs
off the front of the fragment (JS index `-1`). -/
def walkBackWs (frag : List Char) : Nat → Option Nat
  | 0 => none
  | p + 1 => if charTest wsChar frag p then walkBackWs frag p else some p

/-- The backward walk over the attribute name (`attributeNameStart`):
`while (start && /\S/.test(charAt(start - 1))) start--`. -/
def walkBackName (frag : List Char) : Nat → Nat
  | 0 => 0
  | s + 1 => if charTest (fun c => !(wsChar c)) frag s then walkBackName frag s else s + 1

/-- Extract the dynamic attribute's name by walking backward from the `=`
at `valueSeparator`.  When the whitespace walk runs off the front, the
source computes `slice(-1, 0)`, which is the empty string. -/
def attrNameOf (frag : List Char) (valueSeparator : Nat) : List Char :=
  match walkBackWs frag valueSeparator with
  | none => []
  | some e =>
    let s := walkBackName frag e
    (frag.drop s).take (e + 1 - s)

/-- The attribute-skipping loop inside an open tag: repeatedly find the
next `=` before the candidate `>` at `elementEnd`, skip whitespace, then
skip the value — a quoted value via `indexOf(valueDelimiter, pos) + 1`
(which, as in the source, finds the *opening* quote at `pos` again and so
advances just one character), an unquoted one via `[^\s>]*`.  Each
iteration advances the position past a fresh `=` below `elementEnd`, so
`elementEnd + 1` rounds of fuel always suffice. -/
def skipAttrsAux (frag : List Char) (elementEnd : Nat) : Nat → Nat → Nat
  | 0, pos => pos
  | fuel + 1, pos =>
    match indexOfFrom (frag.take elementEnd) ['='] pos with
    | none => pos
    | some idx =>
      let p1 := skipWhileP wsChar frag (idx + 1)
      let p2 :=
        if charTest (fun c => c = '"' || c = '\'') frag p1 then
          match frag[p1]? with
          | some q =>
            match indexOfFrom frag [q] p1 with
            | some j => j + 1
            | none => 0
          | none => p1
        else skipWhileP (fun c => !(wsChar c) && c ≠ '>') frag p1
      skipAttrsAux frag elementEnd fuel p2

def skipAttrs (frag : List Char) (elementEnd pos : Nat) : Nat :=
  skipAttrsAux frag elementEnd (elementEnd + 1) pos

/-- A durable marker recorded by the scanner, with the ghost placeholder
indices of the holes it stands for: an attribute marker holds the queued
`(placeholder index, attribute name)` entries flushed into one
`data-dtpp-attributes` note (an empty name is a whole-element hole), a
node-range marker is the injected empty marker element for the placeholder
of that index.  The indices are ghost data: the injected markup is built
from the same entries via `noteOf` / `markerElementOf`. -/
inductive Marker where
  | attrs (entries : List (Nat × List Char))
  | nodeRange (idx : Nat)
deriving DecidableEq, Repr

/-- A compilation failure.  `outOfFuel` is an artifact of the fuel-based
embedding of the scanner's loop and is unreachable for the fuel supplied
by `scanFrag` (the measure `frag.length - pos` strictly decreases on every
iteration, also when a note is spliced in, because the position jumps past
the inserted text). -/
inductive ScanErr where
  | unterminatedComment (fragIndex : Nat)
  | missingElementName (position : Nat)
  | invalidArguments
  | outOfFuel
deriving DecidableEq, Repr

/-- The scanner's cross-fragment state: the queue of pending
dynamic-attribute entries, the two mode flags, and the ghost list of
emitted markers. -/
structure ScanState where
  pending : List (Nat × List Char)
  inElement : Bool
  inComment : Bool
  markers : List Marker
deriving DecidableEq, Repr

def initScanState : ScanState := ⟨[], false, false, []⟩

/-- `names.join(';')`. -/
def joinSemi : List (List Char) → List Char
  | [] => []
  | [x] => x
  | x :: rest => x ++ ';' :: joinSemi rest

/-- The injected synthetic attribute
`` data-dtpp-attributes="<names joined by ';'>"`` (with its leading
space). -/
def noteOf (names : List (List Char)) : List Char :=
  " data-dtpp-attributes=\"".data ++ joinSemi names ++ "\"".data

/-- The injected empty marker element for a node-range hole:
namespace-appropriate (`g` in SVG mode, `span` in HTML mode). -/
def markerElementOf (isSvg : Bool) : List Char :=
  if isSvg then "<g data-dtpp-nodes=\"\"></g>".data
  else "<span data-dtpp-nodes=\"\"></span>".data

/-- One round of the scanner's `do/while` over a single fragment,
fuel-indexed (see `ScanErr.outOfFuel`).  Faithful to the source, including
`currentPosition += 4` after finding the three-character terminator `-->`
(which skips the character directly following the comment). -/
def scanFragAux (isSvg : Bool) (fragIndex : Nat) (isLast : Bool) :
    Nat → ScanState → List Char → Nat → Except ScanErr (ScanState × List Char)
  | 0, _, _, _ => Except.error ScanErr.outOfFuel
  | fuel + 1, st, frag, pos =>
    if st.inComment then
      match indexOfFrom frag ("-->".data) pos with
      | none => Except.error (ScanErr.unterminatedComment fragIndex)
      | some p =>
        scanFragAux isSvg fragIndex isLast fuel { st with inComment := false } frag (p + 4)
    else if st.inElement then
      match indexOfFrom frag ['>'] pos with
      | none =>
        -- the fragment ends inside a tag: classify the placeholder
        let entry : Nat × List Char :=
          match lastIndexOfChar frag '=' with
          | none => (fragIndex, [])
          | some vs =>
            if completedValueTest (frag.drop (vs + 1)) then (fragIndex, [])
            else (fragIndex, attrNameOf frag vs)
        Except.ok ({ st with pending := st.pending ++ [entry] }, frag)
      | some elementEnd =>
        let pos' := skipAttrs frag elementEnd pos
        if pos' > elementEnd then
          -- false positive: the '>' was inside an attribute's value
          scanFragAux isSvg fragIndex isLast fuel st frag pos'
        else if st.pending.isEmpty then
          scanFragAux isSvg fragIndex isLast fuel { st with inElement := false }
            frag (elementEnd + 1)
        else
          let note := noteOf (st.pending.map Prod.snd)
          scanFragAux isSvg fragIndex isLast fuel
            { st with
                inElement := false
                pending := []
                markers := st.markers ++ [Marker.attrs st.pending] }
            (frag.take elementEnd ++ note ++ frag.drop elementEnd)
            (elementEnd + note.length + 1)
    else
      match indexOfFrom frag ['<'] pos with
      | some p =>
        if substrAt frag ("<!--".data) p then
          scanFragAux isSvg fragIndex isLast fuel { st with inComment := true } frag (p + 4)
        else
          scanFragAux isSvg fragIndex isLast fuel { st with inElement := true } frag
            (skipWhileP wsChar frag
              (skipWhileP nameChar frag
                (skipWhileP wsChar frag (p + 1))))
      | none =>
        if isLast then Except.ok (st, frag)
        else Except.ok
          ({ st with markers := st.markers ++ [Marker.nodeRange fragIndex] },
            frag ++ markerElementOf isSvg)

/-- Scan one fragment from position `0`, with enough fuel (the measure
`frag.length - pos` strictly decreases on every iteration, so
`frag.length + 2` rounds never run out). -/
def scanFrag (isSvg : Bool) (fragIndex : Nat) (isLast : Bool) (st : ScanState)
    (frag : List Char) : Except ScanErr (ScanState × List Char) :=
  scanFragAux isSvg fragIndex isLast (frag.length + 2) st frag 0

/-- The `htmlFragments.map(...)` fold: fragments are scanned left to right
with the shared mutable state; `fragmentIndex < fragmentCount - 1` is
`¬ rest.isEmpty`. -/
def scanFragsGo (isSvg : Bool) : Nat → ScanState → List (List Char) →
    Except ScanErr (ScanState × List (List Char))
  | _, st, [] => Except.ok (st, [])
  | i, st, f :: rest =>
    match scanFrag isSvg i rest.isEmpty st f with
    | Except.error e => Except.error e
    | Except.ok (st', f') =>
      match scanFragsGo isSvg (i + 1) st' rest with
      | Except.error e => Except.error e
      | Except.ok (st'', rest') => Except.ok (st'', f' :: rest')

def scanFragments (isSvg : Bool) (frags : List (List Char)) :
    Except ScanErr (ScanState × List (List Char)) :=
  scanFragsGo isSvg 0 initScanState frags

/-! ### The namespace detector and `createDynamicTemplate` -/

def SVG_ONLY_ELEMENTS : List String :=
  ["altGlyph", "altGlyphDef", "altGlyphItem", "animate", "animateColor", "animateMotion",
   "animateTransform", "circle", "clipPath", "color-profile", "cursor", "defs", "desc",
   "ellipse", "feBlend", "feColorMatrix", "feComponentTransfer", "feComposite",
   "feConvolveMatrix", "feDiffuseLighting", "feDisplacementMap", "feDistantLight", "feFlood",
   "feFuncA", "feFuncB", "feFuncG", "feFuncR", "feGaussianBlur", "feImage", "feMerge",
   "feMergeNode", "feMorphology", "feOffset", "fePointLight", "feSpecularLighting",
   "feSpotLight", "feTile", "feTurbulence", "filter", "font-face", "font-face-format",
   "font-face-name", "font-face-src", "font-face-uri", "foreignObject", "g", "glyph",
   "glyphRef", "hkern", "line", "linearGradient", "marker", "mask", "metadata",
   "missing-glyph", "mpath", "path", "pattern", "polygon", "polyline", "radialGradient",
   "rect", "set", "stop", "switch", "symbol", "text", "textPath", "tref", "tspan", "use",
   "view", "vkern"]

/-- Element names shared by SVG and HTML. -/
def SHARED_ELEMENTS : List String := ["a", "font", "image", "script", "style", "title"]

/-- The SVG/HTML mode heuristic (the `isSvg` IIFE).  The ambiguous branch
(lines 43–56 of the source) asks the host's `DOMParser`, which is outside
the engine; it is taken as a parameter `resolver` (the callers of the
claims below never reach it). -/
def isSvgOf (resolver : List Char → Bool) (completeMarkup : List Char) :
    Except ScanErr Bool :=
  match findSub ['<'] completeMarkup with
  | none => Except.ok false
  | some firstElementStart =>
    -- `/^\s*([^\s:=/>]+)/` applied to the markup after the `<`
    let tail := completeMarkup.drop (firstElementStart + 1)
    let afterWs := tail.drop (runLen wsChar tail)
    let firstElementName := afterWs.take (runLen nameChar afterWs)
    if firstElementName.isEmpty then
      Except.error (ScanErr.missingElementName firstElementStart)
    else if SVG_ONLY_ELEMENTS.contains (String.mk firstElementName) then Except.ok true
    else if !(SHARED_ELEMENTS.contains (String.mk firstElementName)) then Except.ok false
    else Except.ok (resolver completeMarkup)

/-- The input guard of `document.createDynamicTemplate`:
`!htmlFragments.length || (htmlFragments.length === 1 && !htmlFragments)`.
A spread-argument array is always truthy, so `!htmlFragments` is the
constant `false`. -/
def createGuardRejects (htmlFragments : List (List Char)) : Bool :=
  (htmlFragments.length == 0) || ((htmlFragments.length == 1) && false)

/-- The compile-time result: the processed fragments (whose concatenation
is fed to the host parser), the emitted markers in document order, and the
namespace mode.  The host parse itself is outside the engine; see
`parsedPlacesOf`. -/
structure TemplateModel where
  processedFragments : List (List Char)
  markers : List Marker
  isSvg : Bool
deriving DecidableEq, Repr

/-- `document.createDynamicTemplate`: guard, namespace detection, scan. -/
def createDynamicTemplate (resolver : List Char → Bool)
    (htmlFragments : List (List Char)) : Except ScanErr TemplateModel :=
  if createGuardRejects htmlFragments then
    Except.error ScanErr.invalidArguments
  else
    match isSvgOf resolver htmlFragments.flatten with
    | Except.error e => Except.error e
    | Except.ok svg =>
      match scanFragments svg htmlFragments with
      | Except.error e => Except.error e
      | Except.ok (st, processed) => Except.ok ⟨processed, st.markers, svg⟩

/-! ### The instance materializer (`instantiate`) -/

/-- What the host parser hands back to `instantiate` for one
marker-bearing element, in tree order: either the raw string value of its
`data-dtpp-attributes` attribute together with the names of all
attributes the parser recorded on that element (which is what
`getAttributeNode` consults), or a `data-dtpp-nodes` marker.
`placeMatches` below states the assumption that the host parser preserves
the injected markers and their document order (tree order follows
fragment order, which is how `querySelectorAll` reports them). -/
inductive ParsedPlace where
  | attrs (raw : List Char) (present : List (List Char))
  | nodeRange
deriving DecidableEq, Repr

/-- `String.split(';')` (never returns an empty list; splitting the empty
string yields `[""]`). -/
def splitSemi : List Char → List (List Char)
  | [] => [[]]
  | c :: rest =>
    if c = ';' then [] :: splitSemi rest
    else
      match splitSemi rest with
      | [] => [[c]]
      | p :: ps => (c :: p) :: ps

/-- One materialized Part, as far as counting and ordering are concerned. -/
inductive PartKind where
  | attributeP (name : List Char)
  | elementP
  | nodeRangeP
deriving DecidableEq, Repr

/-- The TypeError raised when `DynamicTemplateAttributePartImpl` reads
`.name` off the `null` that `getAttributeNode` returns for an absent
attribute (line 260 of the source). -/
def attributeNullError : String :=
  "TypeError: Cannot read properties of null (reading 'name')"

/-- The inner loop of `instantiate` over one place's `split(';')`
entries.  `seen` is the key set of the deduplication `Map`: a repeated
entry reuses the previously built Part (one more list slot, no second
attribute lookup); a fresh nonempty entry looks its attribute node up on
the place and the Attribute Part constructor crashes on the `null` when
the name is not among the element's parsed attributes; a fresh empty
entry builds an Element Part. -/
def partsForPlace (present : List (List Char)) :
    List (List Char) → List (List Char) → Except String (List PartKind)
  | _, [] => Except.ok []
  | seen, entry :: rest =>
    if entry ∈ seen then
      (partsForPlace present seen rest).map
        (fun ps => (if entry.isEmpty then PartKind.elementP
          else PartKind.attributeP entry) :: ps)
    else if entry.isEmpty then
      (partsForPlace present (entry :: seen) rest).map
        (fun ps => PartKind.elementP :: ps)
    else if entry ∈ present then
      (partsForPlace present (entry :: seen) rest).map
        (fun ps => PartKind.attributeP entry :: ps)
    else Except.error attributeNullError

/-- The part-construction loop of `instantiate` over the marker places in
tree order: an attribute-marker place runs `partsForPlace` over its
`split(';')` entries; a nodes-marker place yields one Node-Range Part. -/
def partsOfPlaces : List ParsedPlace → Except String (List PartKind)
  | [] => Except.ok []
  | ParsedPlace.attrs raw present :: rest =>
    match partsForPlace present [] (splitSemi raw) with
    | Except.error e => Except.error e
    | Except.ok ps => (partsOfPlaces rest).map (fun qs => ps ++ qs)
  | ParsedPlace.nodeRange :: rest =>
    (partsOfPlaces rest).map (fun qs => PartKind.nodeRangeP :: qs)

/-- The host-parse bridge: each emitted marker becomes one marker-bearing
place in document order, an attribute marker carrying the `;`-joined
names exactly as `noteOf` wrote them; which attribute names the host
parser recorded on the element is the host's, so it is unconstrained
here. -/
def placeMatches : Marker → ParsedPlace → Prop
  | Marker.attrs entries, ParsedPlace.attrs raw _ =>
    raw = joinSemi (entries.map Prod.snd)
  | Marker.nodeRange _, ParsedPlace.nodeRange => True
  | _, _ => False

/-- The ghost placeholder indices a marker stands for, one per Part it
will produce. -/
def markerIdx : Marker → List Nat
  | Marker.attrs entries => entries.map Prod.fst
  | Marker.nodeRange i => [i]

/-- All hole indices recorded so far, in order: flushed markers first,
then the still-pending queue. -/
def holeTrace (st : ScanState) : List Nat :=
  (st.markers.map markerIdx).flatten ++ st.pending.map Prod.fst

/-! ### Claim C2: Part count and placeholder order -/

/-- `splitSemi` of a semicolon-free string is the singleton of it. -/
theorem splitSemi_no_semi : ∀ (x : List Char), ';' ∉ x → splitSemi x = [x]
  | [], _ => rfl
  | c :: rest, h => by
    have hc : ¬ c = ';' := fun hc => h (hc ▸ List.mem_cons_self c rest)
    have hrest := splitSemi_no_semi rest (fun hm => h (List.mem_cons_of_mem c hm))
    simp [splitSemi, hc, hrest]

/-- Splitting `x ++ ';' :: t` for a semicolon-free `x` peels `x` off. -/
theorem splitSemi_append_semi : ∀ (x t : List Char), ';' ∉ x →
    splitSemi (x ++ ';' :: t) = x :: splitSemi t
  | [], _, _ => by simp [splitSemi]
  | c :: x', t, h => by
    have hc : ¬ c = ';' := fun hc => h (hc ▸ List.mem_cons_self c x')
    have hx := splitSemi_append_semi x' t (fun hm => h (List.mem_cons_of_mem c hm))
    simp [splitSemi, hc, hx]

/-- `instantiate`'s `split(';')` recovers exactly the name list the
compiler `join(';')`-ed into the note, for a nonempty list of
semicolon-free names (empty names included, as the empty string
round-trips). -/
theorem splitSemi_joinSemi : ∀ (names : List (List Char)), names ≠ [] →
    (∀ x ∈ names, ';' ∉ x) → splitSemi (joinSemi names) = names
  | [], h, _ => absurd rfl h
  | [x], _, hf => by
    simp [joinSemi, splitSemi_no_semi x (hf x (List.mem_cons_self x []))]
  | x :: y :: rest, _, hf => by
    have h1 : splitSemi (joinSemi (y :: rest)) = y :: rest :=
      splitSemi_joinSemi (y :: rest) (List.cons_ne_nil y rest)
        (fun z hz => hf z (List.mem_cons_of_mem x hz))
    have h2 : ';' ∉ x := hf x (List.mem_cons_self x (y :: rest))
    show splitSemi (x ++ ';' :: joinSemi (y :: rest)) = x :: y :: rest
    rw [splitSemi_append_semi x _ h2, h1]

/-- The scanner's running well-formedness: outside a tag the pending queue
is empty, and every flushed attribute marker carries a nonempty entry list
(the flush is guarded by `pendingAttributes.length`). -/
def ScanWF (st : ScanState) : Prop :=
  (st.inElement = false → st.pending = []) ∧
  (∀ entries, Marker.attrs entries ∈ st.markers → entries ≠ [])

/-- With every nonempty entry present among the element's parsed
attributes, the per-place loop never hits the `null` lookup and yields
exactly one Part per entry. -/
theorem partsForPlace_ok (present : List (List Char)) :
    ∀ (entries seen : List (List Char)),
      (∀ x ∈ entries, x ≠ [] → x ∈ present) →
      ∃ ps, partsForPlace present seen entries = Except.ok ps ∧
        ps.length = entries.length
  | [], _, _ => ⟨[], rfl, rfl⟩
  | entry :: rest, seen, h => by
    have hrest : ∀ x ∈ rest, x ≠ [] → x ∈ present :=
      fun x hx => h x (List.mem_cons_of_mem entry hx)
    by_cases hseen : entry ∈ seen
    · obtain ⟨ps, hps, hlen⟩ := partsForPlace_ok present rest seen hrest
      refine ⟨(if entry.isEmpty then PartKind.elementP
          else PartKind.attributeP entry) :: ps, ?_, by simp [hlen]⟩
      simp [partsForPlace, hseen, hps, Except.map]
    · by_cases hemp : entry.isEmpty
      · obtain ⟨ps, hps, hlen⟩ := partsForPlace_ok present rest (entry :: seen) hrest
        refine ⟨PartKind.elementP :: ps, ?_, by simp [hlen]⟩
        simp [partsForPlace, hseen, hemp, hps, Except.map]
      · have hpres : entry ∈ present :=
          h entry (List.mem_cons_self _ _) (fun hnil => hemp (by simp [hnil]))
        obtain ⟨ps, hps, hlen⟩ := partsForPlace_ok present rest (entry :: seen) hrest
        refine ⟨PartKind.attributeP entry :: ps, ?_, by simp [hlen]⟩
        simp [partsForPlace, hseen, hemp, hpres, hps, Except.map]

/-- Under the host-parse bridge, with semicolon-free recorded names all
present on their elements, the whole part loop of `instantiate` succeeds
and yields exactly one Part per recorded hole. -/
theorem partsOfPlaces_ok : ∀ (markers : List Marker) (places : List ParsedPlace),
    List.Forall₂ placeMatches markers places →
    (∀ entries, Marker.attrs entries ∈ markers → entries ≠ []) →
    (∀ entries, Marker.attrs entries ∈ markers → ∀ e ∈ entries, ';' ∉ e.2) →
    (∀ raw present, ParsedPlace.attrs raw present ∈ places →
      ∀ x ∈ splitSemi raw, x ≠ [] → x ∈ present) →
    ∃ parts, partsOfPlaces places = Except.ok parts ∧
      parts.length = ((markers.map markerIdx).flatten).length := by
  intro markers places hrel
  induction hrel with
  | nil =>
    intro _ _ _
    exact ⟨[], rfl, rfl⟩
  | cons hmp hrest ih =>
    rename_i m p ms ps'
    intro hne hfree hpres
    obtain ⟨parts', hok', hlen'⟩ :=
      ih (fun entries hm => hne entries (List.mem_cons_of_mem m hm))
        (fun entries hm => hfree entries (List.mem_cons_of_mem m hm))
        (fun raw present hm => hpres raw present (List.mem_cons_of_mem p hm))
    cases m with
    | nodeRange i =>
      cases p with
      | attrs raw present => exact absurd hmp (by simp [placeMatches])
      | nodeRange =>
        refine ⟨PartKind.nodeRangeP :: parts', ?_, ?_⟩
        · simp [partsOfPlaces, hok', Except.map]
        · simp [markerIdx, hlen']
    | attrs entries =>
      cases p with
      | nodeRange => exact absurd hmp (by simp [placeMatches])
      | attrs raw present =>
        have hraw : raw = joinSemi (entries.map Prod.snd) := hmp
        have hents : entries ≠ [] := hne entries (List.mem_cons_self _ _)
        have hnames : ∀ x ∈ entries.map Prod.snd, ';' ∉ x := by
          intro x hx
          rcases List.mem_map.mp hx with ⟨e, he, rfl⟩
          exact hfree entries (List.mem_cons_self _ _) e he
        have hsj : splitSemi raw = entries.map Prod.snd := by
          rw [hraw]
          exact splitSemi_joinSemi _ (fun h => hents (by simpa using h)) hnames
        obtain ⟨qs, hqs, hqlen⟩ := partsForPlace_ok present (splitSemi raw) []
          (hpres raw present (List.mem_cons_self _ _))
        refine ⟨qs ++ parts', ?_, ?_⟩
        · simp [partsOfPlaces, hqs, hok', Except.map]
        · rw [hsj] at hqlen
          simp [markerIdx, hqlen, hlen']

/-- One fragment's bookkeeping: a successful scan preserves
well-formedness, and the recorded hole indices grow by exactly this
fragment's index — except on a last fragment, which either records no
hole or ends inside an unclosed tag (`inElement` still set). -/
theorem scanFragAux_trace (isSvg : Bool) (i : Nat) (isLast : Bool) :
    ∀ (fuel : Nat) (st : ScanState) (frag : List Char) (pos : Nat)
      (st' : ScanState) (out : List Char), ScanWF st →
      scanFragAux isSvg i isLast fuel st frag pos = Except.ok (st', out) →
      ScanWF st' ∧
        ((holeTrace st' = holeTrace st ++ [i] ∧
            (isLast = true → st'.inElement = true)) ∨
         (holeTrace st' = holeTrace st ∧ isLast = true)) := by
  intro fuel
  induction fuel with
  | zero =>
    intro st frag pos st' out hwf hrun
    exact absurd hrun (by simp [scanFragAux])
  | succ fuel ih =>
    intro st frag pos st' out hwf hrun
    simp only [scanFragAux] at hrun
    split at hrun
    · -- comment mode
      split at hrun
      · exact absurd hrun (by simp)
      · have hwf1 : ScanWF { st with inComment := false } := ⟨hwf.1, hwf.2⟩
        have hres := ih _ _ _ _ _ hwf1 hrun
        exact hres
    · split at hrun
      next hel =>
        -- element mode
        split at hrun
        next hfind =>
          -- the fragment ends inside the tag: the hole joins the queue
          split at hrun
          all_goals
            simp only [Except.ok.injEq, Prod.mk.injEq] at hrun
          all_goals
            obtain ⟨hst, hout⟩ := hrun
          all_goals
            subst hst
          all_goals
            subst hout
          all_goals
            refine ⟨⟨fun h => (nomatch (h.symm.trans hel)), hwf.2⟩,
              Or.inl ⟨?_, fun _ => hel⟩⟩
          · simp [holeTrace]
          · simp only [holeTrace, List.map_append]
            split <;> simp
        next elementEnd hfind =>
          split at hrun
          next hpos => exact ih _ _ _ _ _ hwf hrun
          next hpos =>
            split at hrun
            next hemp =>
              have hwf1 : ScanWF { st with inElement := false } :=
                ⟨fun _ => List.isEmpty_iff.mp hemp, hwf.2⟩
              have hres := ih _ _ _ _ _ hwf1 hrun
              exact hres
            next hemp =>
              -- flush the pending queue into an attribute marker
              have hpne : st.pending ≠ [] := fun hnil => hemp (by simp [hnil])
              have hwf1 : ScanWF { st with inElement := false, pending := [], markers := st.markers ++ [Marker.attrs st.pending] } := by
                refine ⟨fun _ => rfl, fun entries hmem => ?_⟩
                rcases List.mem_append.mp hmem with hm | hm
                · exact hwf.2 entries hm
                · rw [Marker.attrs.inj (List.mem_singleton.mp hm)]
                  exact hpne
              have hres := ih _ _ _ _ _ hwf1 hrun
              have heq : holeTrace { st with inElement := false, pending := [], markers := st.markers ++ [Marker.attrs st.pending] } = holeTrace st := by
                simp [holeTrace, markerIdx]
              rw [heq] at hres
              exact hres
      next hel =>
        -- text mode
        have hnel : st.inElement = false := by
          simpa using hel
        split at hrun
        next p hfind =>
          split at hrun
          next hcmt =>
            have hwf1 : ScanWF { st with inComment := true } := ⟨hwf.1, hwf.2⟩
            have hres := ih _ _ _ _ _ hwf1 hrun
            exact hres
          next hcmt =>
            have hwf1 : ScanWF { st with inElement := true } :=
              ⟨fun _ => hwf.1 hnel, hwf.2⟩
            have hres := ih _ _ _ _ _ hwf1 hrun
            exact hres
        next hfind =>
          have hpend : st.pending = [] := hwf.1 hnel
          split at hrun
          next hlast =>
            simp only [Except.ok.injEq, Prod.mk.injEq] at hrun
            obtain ⟨hst, hout⟩ := hrun
            subst hst
            exact ⟨hwf, Or.inr ⟨rfl, hlast⟩⟩
          next hlast =>
            simp only [Except.ok.injEq, Prod.mk.injEq] at hrun
            obtain ⟨hst, hout⟩ := hrun
            subst hst
            refine ⟨⟨fun _ => hpend, fun entries hmem => ?_⟩,
              Or.inl ⟨?_, fun h => absurd h hlast⟩⟩
            · rcases List.mem_append.mp hmem with hm | hm
              · exact hwf.2 entries hm
              · exact nomatch (List.mem_singleton.mp hm)
            · simp [holeTrace, markerIdx, hpend]

/-- The fold over all fragments: from a well-formed start, a successful
scan that ends outside a tag has recorded exactly one hole per fragment
boundary, in fragment order. -/
theorem scanFragsGo_trace (isSvg : Bool) :
    ∀ (frags : List (List Char)) (k : Nat) (st st2 : ScanState)
      (out : List (List Char)), ScanWF st →
      scanFragsGo isSvg k st frags = Except.ok (st2, out) →
      ScanWF st2 ∧ (st2.inElement = false →
        holeTrace st2 = holeTrace st ++ List.range' k (frags.length - 1)) := by
  intro frags
  induction frags with
  | nil =>
    intro k st st2 out hwf hrun
    simp only [scanFragsGo, Except.ok.injEq, Prod.mk.injEq] at hrun
    obtain ⟨h1, h2⟩ := hrun
    subst h1
    exact ⟨hwf, fun _ => by simp⟩
  | cons f rest ih =>
    intro k st st2 out hwf hrun
    simp only [scanFragsGo] at hrun
    split at hrun
    · exact absurd hrun (by simp)
    next st1 f1 hfrag =>
      split at hrun
      · exact absurd hrun (by simp)
      next st3 rest3 hrest =>
        simp only [Except.ok.injEq, Prod.mk.injEq] at hrun
        obtain ⟨h1, h2⟩ := hrun
        subst h1
        have hstep := scanFragAux_trace isSvg k rest.isEmpty (f.length + 2)
          st f 0 st1 f1 hwf hfrag
        have htail := ih (k + 1) st1 st3 rest3 hstep.1 hrest
        refine ⟨htail.1, fun hclean => ?_⟩
        rcases hstep.2 with ⟨htr, himp⟩ | ⟨htr, hlast⟩
        · -- this fragment recorded its hole index `k`
          cases rest with
          | nil =>
            -- a last fragment that queued a hole ends inside a tag,
            -- contradicting the clean final state
            have hin : st1.inElement = true := himp rfl
            simp only [scanFragsGo, Except.ok.injEq, Prod.mk.injEq] at hrest
            obtain ⟨h3, _⟩ := hrest
            subst h3
            exact (nomatch (hclean.symm.trans hin))
          | cons r rs =>
            have hlen : (r :: rs).length - 1 = rs.length := by simp
            have hlen2 : (f :: r :: rs).length - 1 = rs.length + 1 := by simp
            rw [hlen] at htail
            rw [htail.2 hclean, htr, hlen2, List.append_assoc, List.range'_succ]
            rfl
        · -- a recordless exit only happens on the last fragment
          have hrnil : rest = [] := List.isEmpty_iff.mp hlast
          subst hrnil
          simp only [scanFragsGo, Except.ok.injEq, Prod.mk.injEq] at hrest
          obtain ⟨h3, _⟩ := hrest
          subst h3
          simp [htr]

/-- C2 counterexample: fragments `["<div a;b=\"", "\" a=\"1\" b=\"2\">"]`
have one placeholder, inside the value of the attribute named `a;b`.  The
compiler records that one name; `instantiate` splits the note back on
`;` into `a` and `b`, both of which the host parser did record as
attributes of the `<div>` (`a="1"` and `b="2"` are in the markup), so
the part loop succeeds and the Instance gets two Attribute Parts for the
one placeholder. -/
theorem c2_counterexample :
    scanFragments false ["<div a;b=\"".data, "\" a=\"1\" b=\"2\">".data] =
      Except.ok (⟨[], false, false, [Marker.attrs [(0, "a;b".data)]]⟩,
        ["<div a;b=\"".data,
          "\" a=\"1\" b=\"2\" data-dtpp-attributes=\"a;b\">".data]) ∧
    partsOfPlaces [ParsedPlace.attrs "a;b".data
        ["a;b".data, "a".data, "b".data, "data-dtpp-attributes".data]] =
      Except.ok [PartKind.attributeP "a".data, PartKind.attributeP "b".data] ∧
    (["<div a;b=\"".data, "\" a=\"1\" b=\"2\">".data] :
      List (List Char)).length - 1 = 1 :=
  ⟨rfl, rfl, rfl⟩

/-- C2: for a fragment sequence the scanner compiles successfully ending
outside any tag, with every recorded dynamic-attribute name free of
semicolons and recorded by the host parser as an attribute of its marker
element, the part loop of `instantiate` succeeds and the Part list of
every instance has exactly one Part per placeholder (`fragments − 1` of
them), the `i`-th Part bound to the `i`-th placeholder: the placeholder
indices the Parts stand for, read in Part-list order, are
`0, 1, …, N−1`. -/
theorem c2_part_list_matches_placeholders (svg : Bool)
    (frags : List (List Char)) (stf : ScanState) (out : List (List Char))
    (places : List ParsedPlace)
    (hok : scanFragments svg frags = Except.ok (stf, out))
    (hclean : stf.inElement = false)
    (hfree : ∀ entries, Marker.attrs entries ∈ stf.markers →
      ∀ e ∈ entries, ';' ∉ e.2)
    (hplaces : List.Forall₂ placeMatches stf.markers places)
    (hpresent : ∀ raw present, ParsedPlace.attrs raw present ∈ places →
      ∀ x ∈ splitSemi raw, x ≠ [] → x ∈ present) :
    ∃ parts, partsOfPlaces places = Except.ok parts ∧
      parts.length = frags.length - 1 ∧
      (stf.markers.map markerIdx).flatten = List.range (frags.length - 1) := by
  have hwf0 : ScanWF initScanState :=
    ⟨fun _ => rfl, fun entries hmem => (nomatch hmem)⟩
  have h := scanFragsGo_trace svg frags 0 initScanState stf out hwf0 hok
  have htr := h.2 hclean
  have hpend : stf.pending = [] := h.1.1 hclean
  have hflat : (stf.markers.map markerIdx).flatten =
      List.range (frags.length - 1) := by
    have h0 : holeTrace stf = (stf.markers.map markerIdx).flatten := by
      simp [holeTrace, hpend]
    rw [← h0, htr, List.range_eq_range']
    rfl
  obtain ⟨parts, hparts, hlen⟩ :=
    partsOfPlaces_ok stf.markers places hplaces h.1.2 hfree hpresent
  exact ⟨parts, hparts, by rw [hlen, hflat, List.length_range], hflat⟩

/-- C2 witness: the fragment pair `["<p>", "</p>"]` (one node-range
placeholder, one node-range place), with the theorem applied to its scan
result. -/
theorem c2_part_list_matches_placeholders_witness :
    ∃ parts, partsOfPlaces [ParsedPlace.nodeRange] = Except.ok parts ∧
      parts.length = (["<p>".data, "</p>".data] : List (List Char)).length - 1 ∧
      ((⟨[], false, false, [Marker.nodeRange 0]⟩ : ScanState).markers.map
          markerIdx).flatten =
        List.range ((["<p>".data, "</p>".data] : List (List Char)).length - 1) :=
  c2_part_list_matches_placeholders false ["<p>".data, "</p>".data]
    ⟨[], false, false, [Marker.nodeRange 0]⟩
    ["<p><span data-dtpp-nodes=\"\"></span>".data, "</p>".data]
    [ParsedPlace.nodeRange]
    rfl rfl (fun entries hmem => by simp at hmem)
    (List.Forall₂.cons True.intro List.Forall₂.nil)
    (fun raw present hmem => by simp at hmem)

/-! ### Claim C6: unterminated comments abort compilation -/

theorem scanFragAux_comment_err (isSvg : Bool) (i : Nat) (isLast : Bool) (fuel : Nat)
    (st : ScanState) (frag : List Char) (pos : Nat)
    (hc : st.inComment = true)
    (hnone : indexOfFrom frag ("-->".data) pos = none) :
    scanFragAux isSvg i isLast (fuel + 1) st frag pos =
      Except.error (ScanErr.unterminatedComment i) := by
  simp [scanFragAux, hc, hnone]

theorem scanFragAux_text_to_comment (isSvg : Bool) (i : Nat) (isLast : Bool) (fuel : Nat)
    (st : ScanState) (frag : List Char) (pos p : Nat)
    (hc : st.inComment = false) (he : st.inElement = false)
    (hfound : indexOfFrom frag ['<'] pos = some p)
    (hcomment : substrAt frag ("<!--".data) p = true) :
    scanFragAux isSvg i isLast (fuel + 1) st frag pos =
      scanFragAux isSvg i isLast fuel { st with inComment := true } frag (p + 4) := by
  simp [scanFragAux, hc, he, hfound, hcomment]

/-- Scanning any fragment list whose first fragment opens a comment that
the fragment does not terminate fails with `unterminatedComment`. -/
theorem scanFragments_comment_err (svg : Bool) (s : List Char) (rest : List (List Char))
    (hnoterm : findSub ("-->".data) s = none) :
    scanFragments svg (("<!--".data ++ s) :: rest) =
      Except.error (ScanErr.unterminatedComment 0) := by
  have hscan : scanFrag svg 0 rest.isEmpty initScanState ("<!--".data ++ s) =
      Except.error (ScanErr.unterminatedComment 0) := by
    show scanFragAux svg 0 rest.isEmpty (("<!--".data ++ s).length + 2) initScanState
      ("<!--".data ++ s) 0 = _
    have h2 : ("<!--".data ++ s).length + 2 = (("<!--".data ++ s).length + 1) + 1 := rfl
    rw [h2, scanFragAux_text_to_comment svg 0 rest.isEmpty (("<!--".data ++ s).length + 1)
      initScanState ("<!--".data ++ s) 0 0 rfl rfl rfl rfl]
    apply scanFragAux_comment_err
    · rfl
    · show (findSub ("-->".data) (("<!--".data ++ s).drop 4)).map (· + 4) = none
      rw [show ("<!--".data ++ s).drop 4 = s from rfl, hnoterm]
      rfl
  unfold scanFragments scanFragsGo
  rw [hscan]

theorem isSvgOf_ok (resolver : List Char → Bool) (markup : List Char) (p : Nat)
    (hfind : findSub ['<'] markup = some p)
    (hname : ((markup.drop (p + 1)).drop
        (runLen wsChar (markup.drop (p + 1)))).take
        (runLen nameChar ((markup.drop (p + 1)).drop
          (runLen wsChar (markup.drop (p + 1))))) ≠ []) :
    ∃ b, isSvgOf resolver markup = Except.ok b := by
  simp only [isSvgOf, hfind]
  split
  next hcond => exact absurd (List.isEmpty_iff.mp hcond) hname
  next =>
    split
    next => exact ⟨true, rfl⟩
    next =>
      split
      next => exact ⟨false, rfl⟩
      next => exact ⟨resolver markup, rfl⟩

/-- C6: a fragment sequence whose first fragment opens a markup comment
and ends before `-->` is found (with at least one later fragment, i.e. a
placeholder inside the comment) makes `createDynamicTemplate` fail
synchronously with the UnterminatedComment error: the `Except.error`
result carries no template, so no partially-parsed tree is produced. -/
theorem c6_unterminated_comment (resolver : List Char → Bool) (s : List Char)
    (rest : List (List Char))
    (hnoterm : findSub ("-->".data) s = none)
    (_hrest : rest ≠ []) :
    createDynamicTemplate resolver (("<!--".data ++ s) :: rest) =
      Except.error (ScanErr.unterminatedComment 0) := by
  have hguard : createGuardRejects (("<!--".data ++ s) :: rest) = false := by
    show ((((("<!--".data ++ s) :: rest)).length == 0) ||
      (((("<!--".data ++ s) :: rest).length == 1) && false)) = false
    simp
  have hmk : ((("<!--".data ++ s) :: rest)).flatten = "<!--".data ++ (s ++ rest.flatten) := by
    show ("<!--".data ++ s) ++ rest.flatten = _
    simp
  have hname : ∃ b, isSvgOf resolver ((("<!--".data ++ s) :: rest)).flatten = Except.ok b := by
    rw [hmk]
    refine isSvgOf_ok resolver _ 0 rfl ?_
    rw [show ("<!--".data ++ (s ++ rest.flatten)).drop (0 + 1) =
      '!' :: '-' :: '-' :: (s ++ rest.flatten) from rfl]
    rw [show runLen wsChar ('!' :: '-' :: '-' :: (s ++ rest.flatten)) = 0 from by
      simp [runLen, wsChar]]
    rw [List.drop_zero]
    rw [show runLen nameChar ('!' :: '-' :: '-' :: (s ++ rest.flatten)) =
      runLen nameChar ('-' :: '-' :: (s ++ rest.flatten)) + 1 from by
      simp [runLen, nameChar, wsChar]]
    rw [List.take_succ_cons]
    exact List.cons_ne_nil _ _
  rcases hname with ⟨b, hb⟩
  unfold createDynamicTemplate
  rw [hguard, if_neg (by simp), hb]
  simp only [scanFragments_comment_err b s rest hnoterm]

/-- C6 witness: the §8 example `["<!-- start", " -->"]`, with the theorem
applied to it. -/
theorem c6_unterminated_comment_witness :
    createDynamicTemplate (fun _ => false) (("<!--".data ++ " start".data) :: [" -->".data]) =
      Except.error (ScanErr.unterminatedComment 0) :=
  c6_unterminated_comment (fun _ => false) " start".data [" -->".data] (by decide)
    (by simp)

/-! ### Claim C7: resumption after a comment terminator -/

/-- C7: the comment terminator `-->` is three characters long, but the
scanner resumes at `p + 4` (`currentPosition += 4` in the source), so the
character directly after the terminator is never scanned.  On the fragment
`"<!--c--><b a="` the `<` of `<b` sits right after `-->`: the claimed
behaviour would enter the tag and classify the trailing placeholder as a
dynamic-attribute hole named `a`; instead the scanner stays in text mode,
misclassifies the placeholder as a node-range hole and appends the marker
element in the middle of the open tag. -/
theorem c7_comment_resume_off_by_one :
    scanFragments false ["<!--c--><b a=".data, ">x".data] =
      Except.ok (⟨[], false, false, [Marker.nodeRange 0]⟩,
        ["<!--c--><b a=<span data-dtpp-nodes=\"\"></span>".data, ">x".data]) := rfl

/-! ### Claim C10: the compile-time input guard -/

/-- C10: the guard rejects exactly the zero-length fragment sequence —
`!htmlFragments` is always false for the (truthy) spread-argument array, so
the second disjunct never fires and `[""]` is accepted; compiling the
single empty fragment emits no marker, hence no marker-bearing places, so
instances get zero Parts, despite the error message's claim that "the
fragment must not be an empty string". -/
theorem c10_guard_accepts_empty_string (resolver : List Char → Bool) :
    (∀ frags : List (List Char), createGuardRejects frags = true ↔ frags = []) ∧
    createDynamicTemplate resolver [[]] = Except.ok ⟨[[]], [], false⟩ ∧
    partsOfPlaces ([] : List ParsedPlace) = Except.ok [] := by
  refine ⟨?_, rfl, rfl⟩
  intro frags
  cases frags with
  | nil => simp [createGuardRejects]
  | cons f rest => simp [createGuardRejects]

end DynTpl
